import Mathlib

/-!
Verification of the academic entity extraction and prerequisite-graph
construction pipeline (AgentArtel/mcp-crawl4ai-rag).

The Python sources are shallowly embedded: strings are lists of characters,
Python regular expressions are translated into explicit character-level
matchers with the same greedy/backtracking behaviour on the concrete
patterns used by the code, dictionaries keyed by strings are association
lists with in-place update, the Neo4j graph is a record of keyed node maps
plus a set of edges, and MERGE/SET writes are keyed upserts.
-/

/-- Python strings are modelled as lists of characters. -/
abbrev Str := List Char

/-- ASCII uppercase letter, the character class of an A-Z range without
the IGNORECASE flag. -/
def isUpperA (c : Char) : Bool := 'A' ≤ c && c ≤ 'Z'

/-- ASCII lowercase letter. -/
def isLowerA (c : Char) : Bool := 'a' ≤ c && c ≤ 'z'

/-- ASCII letter, the character class of an A-Z range under IGNORECASE. -/
def isLetterA (c : Char) : Bool := isUpperA c || isLowerA c

/-- ASCII digit, the regex d class on this corpus. -/
def isDigitA (c : Char) : Bool := '0' ≤ c && c ≤ '9'

/-- Regex word character (letter, digit or underscore), used by word
boundaries. -/
def isWordA (c : Char) : Bool := isLetterA c || isDigitA c || c = '_'

/-- Regex whitespace class (space, tab, newline, carriage return, vertical
tab, form feed), also the class used by str.strip and str.split. -/
def isSpaceA (c : Char) : Bool :=
  c = ' ' || c = '\t' || c = '\n' || c = '\x0d' || c = '\x0b' || c = '\x0c'

/-- ASCII lowercasing of one character, as str.lower on this corpus. -/
def lowerA (c : Char) : Char :=
  if isUpperA c then Char.ofNat (c.toNat + 32) else c

/-- ASCII uppercasing of one character, as str.upper on this corpus. -/
def upperA (c : Char) : Char :=
  if isLowerA c then Char.ofNat (c.toNat - 32) else c

/-- str.lower. -/
def pyLower (s : Str) : Str := s.map lowerA

/-- str.upper. -/
def pyUpper (s : Str) : Str := s.map upperA

/-- str.strip: drop whitespace from both ends. -/
def pyStrip (s : Str) : Str :=
  ((s.dropWhile isSpaceA).reverse.dropWhile isSpaceA).reverse

/-- Case-insensitive character comparison. -/
def charCI (a b : Char) : Bool := lowerA a = lowerA b

/-- Does the list start with the given literal, case-sensitively? -/
def startsWithL : Str → Str → Bool
  | _, [] => true
  | [], _ :: _ => false
  | c :: s, d :: l => c = d && startsWithL s l

/-- Does the list start with the given literal, case-insensitively? -/
def startsWithCI : Str → Str → Bool
  | _, [] => true
  | [], _ :: _ => false
  | c :: s, d :: l => charCI c d && startsWithCI s l

/-- Python substring containment (the in operator on strings),
case-sensitive. -/
def containsSub : Str → Str → Bool
  | s, needle =>
    if startsWithL s needle then true
    else match s with
      | [] => false
      | _ :: rest => containsSub rest needle

/-- Worker for collapseWs; the flag records whether the previous
character belonged to a whitespace run already emitted as one space. -/
def collapseWsGo (inRun : Bool) : Str → Str
  | [] => []
  | c :: rest =>
    if isSpaceA c then
      if inRun then collapseWsGo true rest else ' ' :: collapseWsGo true rest
    else c :: collapseWsGo false rest

/-- re.sub of a whitespace-run pattern by a single space: every maximal
run of whitespace characters becomes one space. -/
def collapseWs (s : Str) : Str := collapseWsGo false s

/-- re.sub removing every occurrence of two consecutive asterisks,
left to right and non-overlapping. -/
def removeStars : Str → Str
  | [] => []
  | [c] => [c]
  | a :: b :: rest =>
    if a = '*' && b = '*' then removeStars rest
    else a :: removeStars (b :: rest)

/-- Worker for splitWs; cur holds the reversed current word. -/
def splitWsGo (cur : Str) : Str → List Str
  | [] => if cur = [] then [] else [cur.reverse]
  | c :: rest =>
    if isSpaceA c then
      if cur = [] then splitWsGo [] rest else cur.reverse :: splitWsGo [] rest
    else splitWsGo (c :: cur) rest

/-- str.split with no separator: maximal non-whitespace runs. -/
def splitWs (s : Str) : List Str := splitWsGo [] s

/-- Append an element unless it is already present (ordered
deduplicating accumulation, matching a membership-guarded list append). -/
def appendNew [DecidableEq α] (acc : List α) (x : α) : List α :=
  if x ∈ acc then acc else acc ++ [x]

/-- Worker for dedupFirst, carrying the set of elements already kept. -/
def dedupFirstGo [DecidableEq α] (seen : List α) : List α → List α
  | [] => []
  | x :: rest =>
    if x ∈ seen then dedupFirstGo seen rest
    else x :: dedupFirstGo (seen ++ [x]) rest

/-- First-occurrence deduplication, the key order of a Python dict (or
set) built by repeated insertion. -/
def dedupFirst [DecidableEq α] (l : List α) : List α := dedupFirstGo [] l

/-- Python dict assignment d[k] = v on an insertion-ordered association
list: overwrite in place when the key exists, append otherwise. -/
def dictUpsert [DecidableEq κ] : List (κ × β) → κ → β → List (κ × β)
  | [], k, v => [(k, v)]
  | (k0, v0) :: rest, k, v =>
    if k0 = k then (k0, v) :: rest else (k0, v0) :: dictUpsert rest k v

/-- Python dict lookup: first (hence unique) binding of the key. -/
def dictGet [DecidableEq κ] : List (κ × β) → κ → Option β
  | [], _ => none
  | (k0, v0) :: rest, k => if k0 = k then some v0 else dictGet rest k

/-- Values of an insertion-ordered dict, in insertion order. -/
def dictValues (d : List (κ × β)) : List β := d.map Prod.snd

/-- Parse a nonempty list of ASCII digits as a natural number, as int()
does on a digit string. -/
def digitsToNat (s : Str) : Nat :=
  s.foldl (fun acc c => acc * 10 + (c.toNat - 48)) 0

/-- Coerce a Lean string literal to the character-list model. -/
def str (s : String) : Str := s.data

/-!
Regex machinery.  Each concrete pattern of the source is translated into a
character-level matcher with the same greedy/backtracking behaviour.
Matchers run at the start of their input and return the remaining suffix.
The finditer driver scans left to right, emitting non-overlapping matches,
and tracks the previous character so that word boundaries can be tested.
-/

/-- Greedy counted letter repetition with backtracking: try the longest
number of leading characters satisfying pred first, down to two, passing
the consumed part and the rest to the continuation (the regex piece of a
2-to-4 letter class followed by the rest of the pattern). -/
def matchLettersDown (pred : Char → Bool) (s : Str) (k : Str → Str → Option β) :
    Nat → Option β
  | 0 => none
  | 1 => none
  | Nat.succ l =>
    (if (s.takeWhile pred).length ≥ l + 1 then k (s.take (l + 1)) (s.drop (l + 1))
     else none) <|>
    matchLettersDown pred s k l

/-- The 2-to-4 letter class piece. -/
def matchLetters24 (pred : Char → Bool) (s : Str) (k : Str → Str → Option β) :
    Option β :=
  matchLettersDown pred s k 4

/-- One-or-more whitespace, greedy; no backtracking is needed because every
continuation in this corpus starts with a non-whitespace token. -/
def matchWs1 (s : Str) (k : Str → Str → Option β) : Option β :=
  let r := s.takeWhile isSpaceA
  if r.length ≥ 1 then k r (s.drop r.length) else none

/-- Exactly four digits. -/
def matchDigits4 (s : Str) (k : Str → Str → Option β) : Option β :=
  let d := s.take 4
  if d.length = 4 && d.all isDigitA then k d (s.drop 4) else none

/-- Optional single letter, greedy with backtracking: try consuming it
first, then try the empty alternative. -/
def matchOptLetter (pred : Char → Bool) (s : Str) (k : Str → Str → Option β) :
    Option β :=
  (match s with
   | c :: rest => if pred c then k [c] rest else none
   | [] => none) <|> k [] s

/-- Word boundary before the current position, given the previous
character (none at the very start of the text). -/
def atWordBoundary (prev : Option Char) : Bool :=
  match prev with
  | none => true
  | some c => !isWordA c

/-- Word boundary after a match, tested on the remaining suffix. -/
def boundaryAfter (s : Str) : Bool :=
  match s with
  | [] => true
  | c :: _ => !isWordA c

/-- Case-insensitive literal piece. -/
def matchLitCI (lit : Str) (s : Str) (k : Str → Option β) : Option β :=
  if startsWithCI s lit then k (s.drop lit.length) else none

/-- The course-code pattern of the prerequisite parser, with word
boundaries and IGNORECASE, capturing the letter group and the
digits-plus-optional-letter group. -/
def matchCodePair (prev : Option Char) (s : Str) : Option ((Str × Str) × Str) :=
  if !atWordBoundary prev then none else
  matchLetters24 isLetterA s (fun pfx r1 =>
    matchWs1 r1 (fun _ r2 =>
      matchDigits4 r2 (fun num r3 =>
        matchOptLetter isLetterA r3 (fun letter r4 =>
          if boundaryAfter r4 then some ((pfx, num ++ letter), r4) else none))))

/-- The course-code core without word boundaries, capturing the full
matched text, as used inside the contextual-cue patterns. -/
def matchCodeCoreCap (s : Str) (k : Str → Str → Option β) : Option β :=
  matchLetters24 isLetterA s (fun pfx r1 =>
    matchWs1 r1 (fun ws r2 =>
      matchDigits4 r2 (fun num r3 =>
        matchOptLetter isLetterA r3 (fun letter r4 =>
          k (pfx ++ ws ++ num ++ letter) r4))))

/-- finditer driver: scan left to right, at each position try the matcher
(which also receives the previous character for boundary tests); on a
match emit its payload and resume after it, otherwise advance one
character. -/
def findIterGo (m : Option Char → Str → Option (α × Str)) :
    Nat → Option Char → Str → List α
  | 0, _, _ => []
  | _ + 1, _, [] => []
  | fuel + 1, prev, c :: rest =>
    match m prev (c :: rest) with
    | some (a, r) =>
      if r.length < (c :: rest).length then
        a :: findIterGo m fuel (((c :: rest).take ((c :: rest).length - r.length)).getLast?) r
      else
        a :: findIterGo m fuel (some c) rest
    | none => findIterGo m fuel (some c) rest

/-- All non-overlapping matches of a pattern over a text. -/
def findIter (m : Option Char → Str → Option (α × Str)) (s : Str) : List α :=
  findIterGo m (s.length + 1) none s

/-- All course-code-shaped matches in a text (the findall of the
boundary-delimited course-code pattern), as prefix/number string pairs. -/
def courseCodesIn (s : Str) : List (Str × Str) :=
  findIter matchCodePair s

/-- Format an extracted code pair the way the source does, uppercasing
both groups and joining them with one space. -/
def formatCode (p : Str × Str) : Str :=
  pyUpper p.1 ++ [' '] ++ pyUpper p.2

/-- The optional s followed by a colon in the Prerequisites?: pattern,
greedy: try consuming the s first. -/
def optionalSColon (s : Str) (k : Str → Option β) : Option β :=
  (match s with
   | c :: d :: rest => if charCI c 's' && d = ':' then k rest else none
   | _ => none) <|>
  (match s with
   | c :: rest => if c = ':' then k rest else none
   | [] => none)

/-- The lazy capture up to the next period (or end of text) in the
prerequisite-section patterns: capture everything before the first
period and consume it; with no period, stop before a trailing newline if
present (the end-of-string anchor without MULTILINE), else at the end. -/
def captureTillDot (s : Str) : Str × Str :=
  match s.findIdx? (fun c => c = '.') with
  | some i => (s.take i, s.drop (i + 1))
  | none =>
    if s ≠ [] ∧ s.getLast? = some '\n' then (s.take (s.length - 1), s.drop (s.length - 1))
    else (s, [])

/-- One prerequisite-section pattern: a case-insensitive marker literal,
an optional s (for the Prerequisites?: spelling) and a colon, then the
capture up to the next period. -/
def matchSectionWith (lit : Str) (withOptS : Bool) (_prev : Option Char) (s : Str) :
    Option (Str × Str) :=
  matchLitCI lit s (fun r1 =>
    if withOptS then optionalSColon r1 (fun r2 => some (captureTillDot r2))
    else
      match r1 with
      | c :: rest => if c = ':' then some (captureTillDot rest) else none
      | [] => none)

/-- The three prerequisite-section markers of the source, searched in
order, each over the whole description. -/
def prereqSections (d : Str) : List Str :=
  findIter (matchSectionWith (str "prerequisite") true) d ++
  findIter (matchSectionWith (str "prereq") false) d ++
  findIter (matchSectionWith (str "required") false) d

/-- Contextual cue: code followed by a parenthesised grade qualifier. -/
def matchGradeCtx (_prev : Option Char) (s : Str) : Option (Str × Str) :=
  matchCodeCoreCap s (fun cap r1 =>
    matchWs1 r1 (fun _ r2 =>
      matchLitCI (str "(grade ") r2 (fun r3 =>
        match r3 with
        | c :: r4 =>
          if isLetterA c then
            matchLitCI (str " or higher)") r4 (fun r5 => some (cap, r5))
          else none
        | [] => none)))

/-- Contextual cue: code followed by an or-higher phrase. -/
def matchOrHigherCtx (_prev : Option Char) (s : Str) : Option (Str × Str) :=
  matchCodeCoreCap s (fun cap r1 =>
    matchWs1 r1 (fun _ r2 =>
      matchLitCI (str "or higher") r2 (fun r3 => some (cap, r3))))

/-- Contextual cue: a completion-of phrase followed by a code. -/
def matchCompletionCtx (_prev : Option Char) (s : Str) : Option (Str × Str) :=
  matchLitCI (str "completion of") s (fun r1 =>
    matchWs1 r1 (fun _ r2 =>
      matchCodeCoreCap r2 (fun cap r3 => some (cap, r3))))

/-- All contextual-cue matches, in the source's pattern order. -/
def contextMatches (d : Str) : List Str :=
  findIter matchGradeCtx d ++
  findIter matchOrHigherCtx d ++
  findIter matchCompletionCtx d

/-- The anchored course-code validation pattern applied to a cleaned
candidate (case-sensitive, whole string, allowing the end-of-string
anchor to sit before one trailing newline). -/
def validCodeAnchored (s : Str) : Bool :=
  (matchLetters24 isUpperA s (fun _ r1 =>
    matchWs1 r1 (fun _ r2 =>
      matchDigits4 r2 (fun _ r3 =>
        matchOptLetter isUpperA r3 (fun _ r4 =>
          if r4 = [] ∨ r4 = ['\n'] then some () else none))))).isSome

/-- Embedding of AcademicGraphBuilder extract-prerequisites: collect the
raw course-code pool, extract codes from explicit prerequisite sections,
fall back to contextual cues only when no section produced anything and
the pool is non-empty, then normalise, validate and deduplicate. -/
def extract_prerequisites (description : Str) : List Str :=
  let allCourses := (courseCodesIn description).map formatCode
  let fromSections :=
    (prereqSections description).foldl
      (fun acc sec => ((courseCodesIn sec).map formatCode).foldl appendNew acc) []
  let withCtx :=
    if fromSections.isEmpty && !allCourses.isEmpty then
      (contextMatches description).foldl
        (fun acc m => appendNew acc (collapseWs (pyUpper (pyStrip m)))) []
    else fromSections
  withCtx.foldl
    (fun acc p =>
      let cleaned := collapseWs (pyUpper (pyStrip p))
      if validCodeAnchored cleaned ∧ cleaned ∉ acc then acc ++ [cleaned] else acc) []

/-!
Course extraction (AcademicGraphBuilder extract-courses-from-content and
its helpers).
-/

/-- The case-sensitive credit-unit literal alternation, in the source's
order: Hours with optional s first, then Credits with optional s. -/
def matchHours (s : Str) (k : Str → Option β) : Option β :=
  if startsWithL s (str "Hours") then k (s.drop 5)
  else if startsWithL s (str "Hour") then k (s.drop 4)
  else if startsWithL s (str "Credits") then k (s.drop 7)
  else if startsWithL s (str "Credit") then k (s.drop 6)
  else none

/-- The course-heading pattern: a word boundary, a 2-to-4 uppercase
prefix, whitespace, four digits, a period, whitespace, a period-free
title, a period, optional whitespace and an optional credit clause.
The payload carries the captured groups and the text that follows the
match (the description window starts there). -/
def matchCourseHeading (prev : Option Char) (s : Str) :
    Option ((Str × Str × Str × Option Str × Str) × Str) :=
  if !atWordBoundary prev then none else
  matchLetters24 isUpperA s (fun pfx r1 =>
    matchWs1 r1 (fun _ r2 =>
      matchDigits4 r2 (fun num r3 =>
        match r3 with
        | '.' :: r4 =>
          matchWs1 r4 (fun _ r5 =>
            let title := r5.takeWhile (fun c => !(c = '.' || c = '\n'))
            if title.length ≥ 1 ∧ (r5.drop title.length).head? = some '.' then
              let r6 := r5.drop (title.length + 1)
              let r7 := r6.drop (r6.takeWhile isSpaceA).length
              let digits := r7.takeWhile isDigitA
              let creditsTry : Option (Str × Str) :=
                if digits.length ≥ 1 then
                  let r8 := r7.drop digits.length
                  let r9 := r8.drop (r8.takeWhile isSpaceA).length
                  matchHours r9 (fun r10 => some (digits, r10))
                else none
              match creditsTry with
              | some (ds, r10) => some ((pfx, num, title, some ds, r10), r10)
              | none => some ((pfx, num, title, none, r7), r7)
            else none)
        | _ => none)))

/-- Leftmost match position of a start-anchored Boolean pattern
(re.search returning the match start). -/
def searchPosGo (m : Str → Bool) (i : Nat) : Str → Option Nat
  | [] => if m [] then some i else none
  | c :: rest => if m (c :: rest) then some i else searchPosGo m (i + 1) rest

/-- Description end pattern: a newline followed by the next course
heading start. -/
def endPatCourse (s : Str) : Bool :=
  match s with
  | '\n' :: r =>
    (matchLetters24 isUpperA r (fun _ r1 =>
      matchWs1 r1 (fun _ r2 =>
        matchDigits4 r2 (fun _ r3 =>
          match r3 with
          | '.' :: _ => some ()
          | _ => none)))).isSome
  | _ => false

/-- Description end pattern: a newline followed by an uppercase section
header ending in a colon. -/
def endPatHeader (s : Str) : Bool :=
  match s with
  | '\n' :: c :: r =>
    if isUpperA c then
      let run := r.takeWhile (fun d => isUpperA d || isSpaceA d)
      decide (run.length ≥ 1) && decide ((r.drop run.length).head? = some ':')
    else false
  | _ => false

/-- Description end pattern: a triple newline. -/
def endPatTriple (s : Str) : Bool := startsWithL s (str "\n\n\n")

/-- Embedding of extract-course-description: a 2000-character window
after the heading, cut at the earliest of the three end patterns, then
stripped, whitespace-collapsed and markdown-emphasis-stripped. -/
def extract_course_description (restAfter : Str) : Str :=
  let snippet := restAfter.take 2000
  let endPos :=
    [searchPosGo endPatCourse 0 snippet,
     searchPosGo endPatHeader 0 snippet,
     searchPosGo endPatTriple 0 snippet].foldl
      (fun e p => match p with | some i => min e i | none => e) snippet.length
  removeStars (collapseWs (pyStrip (snippet.take endPos)))

/-- The denylist of invalid course prefixes. -/
def invalidPrefixes : List Str :=
  [str "FALL", str "SPRING", str "SUMMER", str "WINTER",
   str "IN", str "ON", str "AT", str "TO", str "FOR", str "THE",
   str "NTIL", str "CHIN", str "YEAR", str "PAGE",
   str "AND", str "OR", str "BUT", str "NOT", str "WITH"]

/-- The facility vocabulary that disqualifies a title. -/
def facilityKeywords : List Str :=
  [str "stadium", str "center", str "building", str "facility",
   str "hall", str "library"]

/-- str.isdigit on ASCII text: nonempty and all digits. -/
def pyIsDigit (s : Str) : Bool := !s.isEmpty && s.all isDigitA

/-- Embedding of is-valid-course-code. -/
def is_valid_course_code (pfx num title : Str) : Bool :=
  if pfx ∈ invalidPrefixes then false
  else if (startsWithL num (str "19") || startsWithL num (str "20")) &&
      num.length = 4 then false
  else if (pyStrip title).length < 5 || pyIsDigit (pyStrip title) then false
  else if facilityKeywords.any (fun kw => containsSub (pyLower title) kw) then false
  else true

/-- The course-level derivation exactly as written in the source: start
from lower_division, overwrite with upper_division when the number is at
least 3000, and only otherwise test the graduate threshold. -/
def determine_level (n : Nat) : Str :=
  if n ≥ 3000 then str "upper_division"
  else if n ≥ 5000 then str "graduate"
  else str "lower_division"

/-- The structured course record of the graph builder. -/
structure CourseInfo where
  code : Str
  pfx : Str
  num : Str
  title : Str
  credits : Int
  level : Str
  description : Str
  prerequisites : List Str
  corequisites : List Str
  offeredSemesters : List Str
deriving DecidableEq

/-- One heading match of extract-courses-from-content: uppercase the
prefix, strip the title, reject through the validity filter, and
otherwise upsert the assembled course record under its code. -/
def extractCourseStep (courses : List (Str × CourseInfo))
    (m : Str × Str × Str × Option Str × Str) : List (Str × CourseInfo) :=
  match m with
  | (pfx0, num, title0, creditsOpt, restAfter) =>
    let pfxU := pyUpper pfx0
    let title := pyStrip title0
    let code := pfxU ++ [' '] ++ num
    if !is_valid_course_code pfxU num title then courses
    else
      let credits : Int :=
        match creditsOpt with
        | some ds => (digitsToNat ds : Int)
        | none => 3
      let level := determine_level (digitsToNat num)
      let description := extract_course_description restAfter
      dictUpsert courses code
        ⟨code, pfxU, num, title, credits, level, description,
         extract_prerequisites description, [], [str "Fall", str "Spring"]⟩

/-- Embedding of extract-courses-from-content: run the heading pattern
over the page and fold every candidate through the validity filter and
the code-keyed upsert. -/
def extract_courses_from_content (content : Str) : List (Str × CourseInfo) :=
  (findIter matchCourseHeading content).foldl extractCourseStep []

/-!
Program extraction (AcademicGraphBuilder extract-programs-from-content)
and department-name helpers.
-/

/-- The class of characters other than comma and newline. -/
def notCommaNl (c : Char) : Bool := !(c = ',' || c = '\n')

/-- Last case-insensitive occurrence index of a needle in a window
(greedy backtracking of a preceding one-or-more class). -/
def lastIndexCIGo (needle : Str) (i : Nat) (best : Option Nat) : Str → Option Nat
  | [] => best
  | c :: rest =>
    lastIndexCIGo needle (i + 1)
      (if startsWithCI (c :: rest) needle then some i else best) rest

/-- Pattern of a case-insensitive literal head followed by a greedy
comma-and-newline-free run of at least one character (the Bachelor-of and
Master-of program patterns); the capture is the whole match. -/
def matchHeadRun (lit : Str) (_prev : Option Char) (s : Str) : Option (Str × Str) :=
  if startsWithCI s lit then
    let r := s.drop lit.length
    let run := r.takeWhile notCommaNl
    if run.length ≥ 1 then
      some (s.take (lit.length + run.length), r.drop run.length)
    else none
  else none

/-- Pattern of a letter, a greedy comma-and-newline-free run of at least
one character, and a case-insensitive suffix literal (the Certificate and
Minor program patterns); greediness makes the run extend to the last
occurrence of the literal. -/
def matchRunSuffix (needle : Str) (_prev : Option Char) (s : Str) : Option (Str × Str) :=
  match s with
  | c :: r =>
    if isLetterA c then
      let run := r.takeWhile notCommaNl
      match lastIndexCIGo needle 0 none run with
      | some k =>
        if k ≥ 1 then
          some (s.take (1 + k + needle.length), s.drop (1 + k + needle.length))
        else none
      | none => none
    else none
  | [] => none

/-- Python str.title: uppercase the first letter of every letter run,
lowercase the rest. -/
def pyTitleGo (prevAlpha : Bool) : Str → Str
  | [] => []
  | c :: rest =>
    if isLetterA c then
      (if prevAlpha then lowerA c else upperA c) :: pyTitleGo true rest
    else c :: pyTitleGo false rest

/-- str.title. -/
def pyTitle (s : Str) : Str := pyTitleGo false s

/-- The trailing-URL-segment pattern: a slash, a greedy slash-free run,
an optional slash and the end anchor (which may sit before one trailing
newline); re.search takes the leftmost such match. -/
def matchLastSeg (s : Str) : Option Str :=
  match s with
  | '/' :: r =>
    let run := r.takeWhile (fun c => c ≠ '/')
    if run.length ≥ 1 then
      let rest := r.drop run.length
      if rest = [] ∨ rest = ['/'] ∨ rest = ['\n'] ∨ rest = ['/', '\n'] then
        some run
      else none
    else none
  | _ => none

/-- search driver for the trailing-segment pattern. -/
def searchLastSeg : Str → Option Str
  | [] => none
  | c :: rest =>
    match matchLastSeg (c :: rest) with
    | some run => some run
    | none => searchLastSeg rest

/-- Embedding of extract-department-from-url. -/
def extract_department_from_url (url : Str) : Str :=
  match searchLastSeg url with
  | some seg => pyTitle (seg.map (fun c => if c = '-' then ' ' else c))
  | none => str "Unknown Department"

/-- The structured program record of the graph builder. -/
structure ProgramInfo where
  name : Str
  code : Str
  ptype : Str
  level : Str
  totalCredits : Int
  description : Str
  department : Str
  requirements : List Str
deriving DecidableEq

/-- The keyword classification of a program name into type and level, in
the source's branch order; an unclassifiable candidate is skipped. -/
def classifyProgram (name : Str) : Option (Str × Str) :=
  if containsSub name (str "Bachelor") then some (str "Bachelor", str "undergraduate")
  else if containsSub name (str "Master") then some (str "Master", str "graduate")
  else if containsSub name (str "Certificate") then some (str "Certificate", str "undergraduate")
  else if containsSub name (str "Minor") then some (str "Minor", str "undergraduate")
  else none

/-- Embedding of extract-programs-from-content: the four program
patterns in order, each candidate stripped, classified and upserted into
a name-keyed dict; no further validation is applied. -/
def extract_programs_from_content (content url : Str) : List (Str × ProgramInfo) :=
  (findIter (matchHeadRun (str "bachelor of ")) content ++
   findIter (matchHeadRun (str "master of ")) content ++
   findIter (matchRunSuffix (str " certificate")) content ++
   findIter (matchRunSuffix (str " minor")) content).foldl
    (fun programs cap =>
      let name := pyStrip cap
      match classifyProgram name with
      | none => programs
      | some tl =>
        dictUpsert programs name
          ⟨name, pyUpper (name.map (fun c => if c = ' ' then '_' else c)),
           tl.1, tl.2, 120, name ++ str " program",
           extract_department_from_url url, []⟩)
    []

/-!
The auxiliary population script (agent-docs/tests/populate_supabase_tables.py)
has its own program extractor with an explicit name guard; it is embedded
separately from the graph builder's extractor above.
-/

/-- The class of characters other than a pipe. -/
def notPipe (c : Char) : Bool := c ≠ '|'

/-- Script pattern of a case-insensitive literal head followed by a
greedy pipe-free run (the Bachelor-of, Master-of, Associate-of
patterns). -/
def matchHeadRunP (lit : Str) (_prev : Option Char) (s : Str) : Option (Str × Str) :=
  if startsWithCI s lit then
    let r := s.drop lit.length
    let run := r.takeWhile notPipe
    if run.length ≥ 1 then
      some (s.take (lit.length + run.length), r.drop run.length)
    else none
  else none

/-- Script pattern of a greedy pipe-free run of at least one character
followed by a case-insensitive suffix literal (the Certificate and Degree
patterns); greediness picks the last occurrence of the literal. -/
def matchRunSuffixP (needle : Str) (_prev : Option Char) (s : Str) : Option (Str × Str) :=
  let run := s.takeWhile notPipe
  match lastIndexCIGo needle 0 none run with
  | some k =>
    if k ≥ 1 then
      some (s.take (k + needle.length), s.drop (k + needle.length))
    else none
  | none => none

/-- The program row appended by the script. -/
structure ScriptProgram where
  name : Str
  degreeType : Str
  department : Str
  description : Str
  requirements : Str
  totalCredits : Option Int
  sourceId : Str
deriving DecidableEq

/-- The script's keyword classification of a degree type. -/
def scriptClassifyDegree (name : Str) : Str :=
  let low := pyLower name
  if containsSub low (str "bachelor") then str "Bachelor"
  else if containsSub low (str "master") then str "Master"
  else if containsSub low (str "associate") then str "Associate"
  else if containsSub low (str "certificate") then str "Certificate"
  else str "Other"

/-- One candidate step of the script's program loop: strip and truncate
the captured name, skip it when it is shorter than ten characters,
already present, a bare degree or certificate word, or contains a pipe;
otherwise append the program row. -/
def scriptProgramStep (sourceId : Str) (programs : List ScriptProgram) (cap : Str) :
    List ScriptProgram :=
  let name := (pyStrip (pyStrip cap)).take 500
  if name.length < 10 ∨ programs.any (fun p => p.name = name) ∨
      pyLower name = str "degree" ∨ pyLower name = str "certificate" ∨
      '|' ∈ name then
    programs
  else
    programs ++
      [⟨name, scriptClassifyDegree name, str "Unknown", [], [], none, sourceId⟩]

/-- Embedding of the script's program extraction over one page: the five
patterns in order, each candidate folded through the guarded append. -/
def extract_programs_script (content sourceId : Str) : List ScriptProgram :=
  (findIter (matchHeadRunP (str "bachelor of ")) content ++
   findIter (matchHeadRunP (str "master of ")) content ++
   findIter (matchHeadRunP (str "associate of ")) content ++
   findIter (matchRunSuffixP (str "certificate")) content ++
   findIter (matchRunSuffixP (str "degree")) content).foldl
    (scriptProgramStep sourceId) []

/-!
The graph builder's Supabase mirror for programs: rows deduplicated on
the name truncated to 500 characters.
-/

/-- A Supabase academic-programs row. -/
structure ProgramRecord where
  programName : Str
  programType : Str
  level : Str
  description : Option Str
  sourceId : Str
deriving DecidableEq

/-- One step of the program-record loop: truncate the name to 500
characters, skip the program when that key was already seen, otherwise
append the row and remember the key. -/
def programRecordStep (st : List ProgramRecord × List Str) (p : ProgramInfo) :
    List ProgramRecord × List Str :=
  let truncated := p.name.take 500
  if truncated ∈ st.2 then st
  else
    (st.1 ++
      [⟨truncated, p.ptype, p.level,
        (if p.description = [] then none else some (p.description.take 1000)),
        str "catalog.utahtech.edu"⟩],
     st.2 ++ [truncated])

/-- Embedding of the program section of populate-supabase-tables: fold
the canonical program collection through the guarded append, collecting
the rows to upsert. -/
def build_program_records (ps : List ProgramInfo) : List ProgramRecord :=
  (ps.foldl programRecordStep ([], [])).1

/-!
Graph builder: the Neo4j state is a record of keyed node maps (one per
label, keyed by the natural key of the uniqueness constraint) and a set
of typed edges.  MERGE plus SET on a key is a keyed upsert that replaces
all listed properties; MERGE on a relationship is set insertion; the
datetime call in each SET clause is modelled by an explicit clock
parameter.
-/

/-- Properties written on the University node. -/
structure UniProps where
  location : Str
  website : Str
  createdAt : Nat

/-- Properties written on a Department node. -/
structure DeptProps where
  name : Str
  code : Str
  description : Str
  createdAt : Nat

/-- Properties written on a Course node. -/
structure CourseProps where
  pfx : Str
  num : Str
  title : Str
  credits : Int
  level : Str
  description : Str
  prereqText : Str
  offered : List Str
  createdAt : Nat

/-- Properties written on a Program node. -/
structure ProgProps where
  code : Str
  ptype : Str
  level : Str
  totalCredits : Int
  description : Str
  createdAt : Nat

/-- A typed, directed relationship between two keyed nodes. -/
structure Edge where
  rel : Str
  srcLabel : Str
  srcKey : Str
  dstLabel : Str
  dstKey : Str
deriving DecidableEq

/-- The modelled Neo4j state. -/
@[ext]
structure GraphState where
  uni : Str → Option UniProps
  dept : Str → Option DeptProps
  course : Str → Option CourseProps
  prog : Str → Option ProgProps
  edges : Set Edge

/-- The structured department record of the graph builder. -/
structure DeptInfo where
  name : Str
  code : Str
  pfx : Str
  description : Str
  programs : List Str
  courses : List Str
deriving DecidableEq

/-- The canonical entity maps handed to the populate step. -/
structure AcademicData where
  departments : List DeptInfo
  courses : List CourseInfo
  programs : List ProgramInfo

/-- Keyed node upsert: MERGE on the key followed by SET of all listed
properties. -/
def upd (m : Str → Option β) (k : Str) (v : β) : Str → Option β :=
  fun x => if x = k then some v else m x

/-- A loop of keyed upserts over an entity list. -/
def upsertAll (key : α → Str) (mk : α → β) (L : List α) (m : Str → Option β) :
    Str → Option β :=
  L.foldl (fun acc a => upd acc (key a) (mk a)) m

/-- The comma-space join used for the denormalised prerequisite text. -/
def joinCommaSpace (l : List Str) : Str := List.intercalate (str ", ") l

/-- Embedding of populate-neo4j: upsert the University singleton, then
every department keyed by prefix, every course keyed by code and every
program keyed by name; the clock parameter stands for the datetime call
in each SET clause.  Edges are untouched. -/
def populate_neo4j (t : Nat) (d : AcademicData) (s : GraphState) : GraphState :=
  { s with
    uni := upd s.uni (str "Utah Tech University")
      ⟨str "St. George, Utah", str "https://utahtech.edu", t⟩
    dept := upsertAll DeptInfo.pfx
      (fun di => ⟨di.name, di.code, di.description, t⟩) d.departments s.dept
    course := upsertAll CourseInfo.code
      (fun ci => ⟨ci.pfx, ci.num, ci.title, ci.credits, ci.level, ci.description,
        joinCommaSpace ci.prerequisites, ci.offeredSemesters, t⟩) d.courses s.course
    prog := upsertAll ProgramInfo.name
      (fun p => ⟨p.code, p.ptype, p.level, p.totalCredits, p.description, t⟩)
      d.programs s.prog }

/-- The static department-name-to-prefix lookup table, in source order. -/
def deptMappings : List (Str × Str) :=
  [(str "art", str "ART"), (str "computer science", str "CS"),
   (str "nursing", str "NURS"), (str "business", str "BUS"),
   (str "english", str "ENGL"), (str "mathematics", str "MATH"),
   (str "biology", str "BIOL"), (str "chemistry", str "CHEM"),
   (str "physics", str "PHYS"), (str "psychology", str "PSY"),
   (str "history", str "HIST"), (str "geography", str "GEOG")]

/-- First mapping whose key occurs in the lowered department name. -/
def firstDeptMapping (deptLower : Str) : List (Str × Str) → Option Str
  | [] => none
  | (k, v) :: rest =>
    if containsSub deptLower k then some v else firstDeptMapping deptLower rest

/-- Embedding of extract-department-prefix (the best-effort mapping from
a department label to a course prefix): static table first, then the
first four letters of the first word, uppercased. -/
def extract_department_pfx (departmentName : Str) : Str :=
  let deptLower := pyStrip (pyLower departmentName)
  match firstDeptMapping deptLower deptMappings with
  | some v => v
  | none =>
    match splitWs deptLower with
    | [] => []
    | w :: _ => pyUpper (w.take 4)

/-- The department-offers-course edge. -/
def offersCourseEdge (ci : CourseInfo) : Edge :=
  ⟨str "OFFERS_COURSE", str "Department", ci.pfx, str "Course", ci.code⟩

/-- The course-belongs-to-discipline edge. -/
def belongsDisciplineEdge (ci : CourseInfo) : Edge :=
  ⟨str "BELONGS_TO_DISCIPLINE", str "Course", ci.code, str "Department", ci.pfx⟩

/-- The prerequisite edge from a prerequisite code to a course. -/
def prereqEdge (pc : Str) (ci : CourseInfo) : Edge :=
  ⟨str "PREREQUISITE_FOR", str "Course", pc, str "Course", ci.code⟩

/-- The department-offers-program edge. -/
def offersProgramEdge (dp : Str) (p : ProgramInfo) : Edge :=
  ⟨str "OFFERS_PROGRAM", str "Department", dp, str "Program", p.name⟩

/-- The program-belongs-to-department edge. -/
def belongsDeptEdge (dp : Str) (p : ProgramInfo) : Edge :=
  ⟨str "BELONGS_TO_DEPARTMENT", str "Program", p.name, str "Department", dp⟩

/-- Embedding of create-relationships: each MATCH-MATCH-MERGE statement
adds its edge only when both endpoint nodes exist; the final university
hierarchy statement links every University node to every Department
node.  Node maps are read but never written. -/
def create_relationships (s : GraphState) (d : AcademicData) : GraphState :=
  let e1 := d.courses.foldl
    (fun es ci =>
      if (s.course ci.code).isSome ∧ (s.dept ci.pfx).isSome then
        insert (belongsDisciplineEdge ci) (insert (offersCourseEdge ci) es)
      else es) s.edges
  let e2 := d.courses.foldl
    (fun es ci =>
      ci.prerequisites.foldl
        (fun es2 pc =>
          if (s.course pc).isSome ∧ (s.course ci.code).isSome then
            insert (prereqEdge pc ci) es2
          else es2) es) e1
  let e3 := d.programs.foldl
    (fun es p =>
      if p.department ≠ [] then
        let dp := extract_department_pfx p.department
        if dp ≠ [] then
          if (s.prog p.name).isSome ∧ (s.dept dp).isSome then
            insert (belongsDeptEdge dp p) (insert (offersProgramEdge dp p) es)
          else es
        else es
      else es) e2
  let e4 := e3 ∪ {e : Edge |
    e.rel = str "HAS_DEPARTMENT" ∧ e.srcLabel = str "University" ∧
    e.dstLabel = str "Department" ∧ (s.uni e.srcKey).isSome ∧
    (s.dept e.dstKey).isSome}
  { s with edges := e4 }

/-- One full graph-build pass over the canonical entity maps: node
upserts, then relationship creation. -/
def build_graph_step (t : Nat) (d : AcademicData) (s : GraphState) : GraphState :=
  create_relationships (populate_neo4j t d s) d

/-!
Graph query and planning layer (graph_enhanced_tools).  Each tool reads
course rows out of the graph through a per-code query; the query result
is modelled as a lookup function from a course code to an optional row.
-/

/-- A course row as returned by the per-course Cypher query. -/
structure PlannerCourse where
  code : Str
  title : Str
  credits : Option Int
  level : Option Str
  department : Option Str
  prerequisites : List Str
deriving DecidableEq

/-- The Python or-3 default on the credits column: null and zero both
fall back to three credits. -/
def pyOr3 (c : Option Int) : Int :=
  match c with
  | some v => if v = 0 then 3 else v
  | none => 3

/-- The processed per-course record kept by sequence validation. -/
structure SeqCourseInfo where
  code : Str
  title : Str
  credits : Int
  level : Option Str
  department : Option Str
  prerequisites : List Str
deriving DecidableEq

/-- Row post-processing: credit default and the truthiness filter on
collected prerequisite codes. -/
def seqInfoOf (r : PlannerCourse) : SeqCourseInfo :=
  ⟨r.code, r.title, pyOr3 r.credits, r.level, r.department,
   r.prerequisites.filter (fun p => p ≠ [])⟩

/-- A reported prerequisite violation. -/
structure Violation where
  course : Str
  missing : List Str
deriving DecidableEq

/-- The result of sequence validation (the statistics flattened in). -/
structure SeqResult where
  valid : Bool
  violations : List Violation
  totalCourses : Nat
  totalCredits : Int
  upperDivisionCredits : Int
  disciplineCount : Nat
deriving DecidableEq

/-- The per-code fetch of sequence validation: a found row is processed
and upserted under its code, an unknown code leaves the dict unchanged. -/
def seqFetchStep (db : Str → Option PlannerCourse)
    (d : List (Str × SeqCourseInfo)) (c : Str) : List (Str × SeqCourseInfo) :=
  match db c with
  | some r => dictUpsert d c (seqInfoOf r)
  | none => d

/-- Embedding of validate-course-sequence: fetch each course row into a
code-keyed dict, then walk the list in order checking every direct
prerequisite against the completed set accumulated from earlier
positions, recording a violation per failure; unknown codes are skipped
entirely.  Statistics aggregate over the fetched rows, counting
upper-division credits by equality with the hyphen-spelled level. -/
def validate_course_sequence (db : Str → Option PlannerCourse) (codes : List Str) :
    SeqResult :=
  let courseInfo := codes.foldl (seqFetchStep db) []
  let walk := codes.foldl
    (fun st c =>
      match dictGet courseInfo c with
      | some info =>
        let missing := info.prerequisites.filter (fun p => p ∉ st.1)
        (appendNew st.1 c,
         if missing ≠ [] then st.2 ++ [Violation.mk c missing] else st.2)
      | none => st)
    (([] : List Str), ([] : List Violation))
  let vals := dictValues courseInfo
  { valid := walk.2.isEmpty
    violations := walk.2
    totalCourses := vals.length
    totalCredits := (vals.map (fun i => i.credits)).sum
    upperDivisionCredits :=
      ((vals.filter (fun i => i.level = some (str "upper-division"))).map
        (fun i => i.credits)).sum
    disciplineCount := (dedupFirst (vals.map (fun i => i.department))).length }

/-- The processed per-course record kept by degree-progress analysis. -/
structure ProgCourseInfo where
  code : Str
  title : Str
  credits : Int
  level : Option Str
  department : Option Str
deriving DecidableEq

/-- The degree-progress report (the fields the claims are about). -/
structure ProgressResult where
  completedCredits : Int
  completedUpper : Int
  disciplineCount : Nat
  remainingCredits : Int
  remainingUpper : Int
  totalCredits : Int
  totalUpper : Int
  meetsCredits : Bool
  meetsUpper : Bool
  meetsDisciplines : Bool
  remainingToCredits : Int
  remainingToUpper : Int
  remainingToDisciplines : Int
  percentage : ℚ
  ready : Bool
deriving DecidableEq

/-- The code-to-row mapping of degree-progress analysis: a row is
available for codes of the completed or target lists that the graph
knows, with the credit default applied. -/
def progInfoOf (db : Str → Option PlannerCourse) (completed target : List Str)
    (c : Str) : Option ProgCourseInfo :=
  if c ∈ completed ++ target then
    (db c).map (fun r => ⟨r.code, r.title, pyOr3 r.credits, r.level, r.department⟩)
  else none

/-- Credits contributed by one code in a degree-progress sum (zero for
codes without a row). -/
def progCreditsOf (db : Str → Option PlannerCourse) (completed target : List Str)
    (c : Str) : Int :=
  match progInfoOf db completed target c with
  | some i => i.credits
  | none => 0

/-- Upper-division credits contributed by one code in a degree-progress
sum: counted only when the row level equals the hyphen-spelled
upper-division string. -/
def progUpperOf (db : Str → Option PlannerCourse) (completed target : List Str)
    (c : Str) : Int :=
  match progInfoOf db completed target c with
  | some i => if i.level = some (str "upper-division") then i.credits else 0
  | none => 0

/-- Embedding of analyze-degree-progress: fetch rows for the union of
completed and target codes, aggregate completed and remaining credits,
upper-division credits (hyphen-spelled level) and distinct completed
disciplines, compare the totals against the fixed 120/40/3 thresholds,
cap the completion percentage at one hundred, and require all three
thresholds for readiness. -/
def analyze_degree_progress (db : Str → Option PlannerCourse)
    (completed target : List Str) : ProgressResult :=
  let info := progInfoOf db completed target
  let creditsOf := progCreditsOf db completed target
  let upperOf := progUpperOf db completed target
  let completedCredits := (completed.map creditsOf).sum
  let completedUpper := (completed.map upperOf).sum
  let completedDisciplines :=
    dedupFirst ((completed.filter (fun c => (info c).isSome)).map
      (fun c =>
        match info c with
        | some i => i.department
        | none => none))
  let remainingCourses := target.filter (fun c => c ∉ completed)
  let remainingCredits := (remainingCourses.map creditsOf).sum
  let remainingUpper := (remainingCourses.map upperOf).sum
  let totalCredits := completedCredits + remainingCredits
  let totalUpper := completedUpper + remainingUpper
  let meetsCredits := decide (totalCredits ≥ 120)
  let meetsUpper := decide (totalUpper ≥ 40)
  let meetsDisciplines := decide (completedDisciplines.length ≥ 3)
  { completedCredits := completedCredits
    completedUpper := completedUpper
    disciplineCount := completedDisciplines.length
    remainingCredits := remainingCredits
    remainingUpper := remainingUpper
    totalCredits := totalCredits
    totalUpper := totalUpper
    meetsCredits := meetsCredits
    meetsUpper := meetsUpper
    meetsDisciplines := meetsDisciplines
    remainingToCredits := max 0 (120 - totalCredits)
    remainingToUpper := max 0 (40 - totalUpper)
    remainingToDisciplines := max 0 (3 - (completedDisciplines.length : Int))
    percentage := min 100 ((totalCredits : ℚ) / 120 * 100)
    ready := meetsCredits && meetsUpper && meetsDisciplines }

/-- A path row as returned by the prerequisite-chain Cypher query: the
node codes along the path, their credit values, and the path length in
edges. -/
structure ChainRecord where
  coursePath : List Str
  creditPath : List Int
  depth : Nat
deriving DecidableEq

/-- A prerequisite path with its annotations. -/
structure PrerequisitePath where
  targetCourse : Str
  path : List Str
  totalCredits : Int
  semestersNeeded : Nat
deriving DecidableEq

/-- Embedding of get-prerequisite-chain over the query result rows:
filter by the depth bound, order by depth descending, and annotate each
path with its credit sum and the semester estimate, which is the
floor of half of depth plus one, clamped below by one. -/
def get_prerequisite_chain (courseCode : Str) (records : List ChainRecord)
    (maxDepth : Nat) : List PrerequisitePath :=
  ((records.filter (fun r => r.depth ≤ maxDepth)).insertionSort
      (fun a b => b.depth ≤ a.depth)).map
    (fun r =>
      ⟨courseCode, r.coursePath, r.creditPath.sum, max 1 ((r.depth + 1) / 2)⟩)

/-- The in-degree table of the topological sort: one pass over the
course list, adding, for each course, the number of its prerequisites
that are themselves keys of the table. -/
def buildInDegree (courses : List Str) (pg : Str → List Str) : Str → Int :=
  courses.foldl
    (fun deg c =>
      fun x =>
        if x = c then deg x + ((pg c).filter (fun p => p ∈ courses)).length
        else deg x)
    (fun _ => 0)

/-- One course of the decrement pass after a dequeue: when the dequeued
course is a prerequisite of this one, decrement its in-degree and
enqueue it if the degree reached zero. -/
def topoDecStep (pg : Str → List Str) (current : Str)
    (st : (Str → Int) × List Str) (c : Str) : (Str → Int) × List Str :=
  if current ∈ pg c then
    let d := st.1 c - 1
    let deg2 : Str → Int := fun x => if x = c then d else st.1 x
    if d = 0 then (deg2, st.2 ++ [c]) else (deg2, st.2)
  else st

/-- The dequeue loop of the topological sort, fuelled; a dequeue appends
the current course to the result and runs the decrement pass over the
whole course list. -/
def topoRun (courses : List Str) (pg : Str → List Str) :
    Nat → (Str → Int) → List Str → List Str → ((Str → Int) × List Str × List Str)
  | 0, deg, queue, result => (deg, queue, result)
  | _ + 1, deg, [], result => (deg, [], result)
  | fuel + 1, deg, current :: rest, result =>
    let st := courses.foldl (topoDecStep pg current) (deg, rest)
    topoRun courses pg fuel st.1 st.2 (result ++ [current])

/-- Embedding of the planner's topological sort (Kahn's algorithm): the
in-degree table over the requested courses, an initial queue of
zero-in-degree courses in first-seen order, and the dequeue loop.  The
loop dequeues each course at most once, so the fuel is never exhausted
before the queue empties. -/
def topological_sort (courses : List Str) (pg : Str → List Str) : List Str :=
  let deg0 := buildInDegree courses pg
  let queue0 := (dedupFirst courses).filter (fun c => deg0 c = 0)
  (topoRun courses pg (2 * courses.length + 2) deg0 queue0 []).2.2

/-- The semester packing of recommend-course-sequence: walk the sorted
order, skip codes with no fetched row, and start a new semester once
adding the next course would exceed the per-semester credit cap. -/
def group_semesters (found : Str → Bool) (creditOf : Str → Int) (cap : Int) :
    List Str → List Str → Int → List (List Str)
  | [], cur, _ => if cur = [] then [] else [cur]
  | c :: rest, cur, curCred =>
    if found c then
      if curCred + creditOf c > cap ∧ cur ≠ [] then
        cur :: group_semesters found creditOf cap rest [c] (creditOf c)
      else group_semesters found creditOf cap rest (cur ++ [c]) (curCred + creditOf c)
    else group_semesters found creditOf cap rest cur curCred

/-- The last entity of a list writing a given key. -/
def lastKeyed (key : α → Str) (L : List α) (x : Str) : Option α :=
  (L.filter (fun a => key a = x)).getLast?

/-- The edge set added by one relationship pass, as a function of the
node maps it consults. -/
def relAdded (uniM : Str → Option UniProps) (deptM : Str → Option DeptProps)
    (courseM : Str → Option CourseProps) (progM : Str → Option ProgProps)
    (d : AcademicData) : Set Edge :=
  {e | ∃ ci ∈ d.courses, ((courseM ci.code).isSome ∧ (deptM ci.pfx).isSome) ∧
        (e = offersCourseEdge ci ∨ e = belongsDisciplineEdge ci)} ∪
  ({e | ∃ ci ∈ d.courses, ∃ pc ∈ ci.prerequisites,
        ((courseM pc).isSome ∧ (courseM ci.code).isSome) ∧ e = prereqEdge pc ci} ∪
  ({e | ∃ p ∈ d.programs,
        (p.department ≠ [] ∧ extract_department_pfx p.department ≠ [] ∧
         ((progM p.name).isSome ∧ (deptM (extract_department_pfx p.department)).isSome)) ∧
        (e = offersProgramEdge (extract_department_pfx p.department) p ∨
         e = belongsDeptEdge (extract_department_pfx p.department) p)} ∪
  {e | e.rel = str "HAS_DEPARTMENT" ∧ e.srcLabel = str "University" ∧
       e.dstLabel = str "Department" ∧ (uniM e.srcKey).isSome ∧
       (deptM e.dstKey).isSome}))

/-- A three-course graph row lookup for the sequence-validation claim:
CS 1400 has no prerequisites, CS 1410 requires CS 1400, CS 2420
requires CS 1410. -/
def dbC6 : Str → Option PlannerCourse := fun c =>
  if c = str "CS 1400" then
    some ⟨str "CS 1400", str "Intro to Programming", some 3,
      some (str "lower-division"), some (str "Computer Science"), []⟩
  else if c = str "CS 1410" then
    some ⟨str "CS 1410", str "Object Oriented Programming", some 3,
      some (str "lower-division"), some (str "Computer Science"), [str "CS 1400"]⟩
  else if c = str "CS 2420" then
    some ⟨str "CS 2420", str "Data Structures", some 4,
      some (str "lower-division"), some (str "Computer Science"), [str "CS 1410"]⟩
  else none

/-- Graph rows for the degree-progress claim: a 76-credit and a
70-credit lower-division art course, a 45-credit upper-division
computer-science course, and two 2-credit courses in two further
disciplines. -/
def db8 : Str → Option PlannerCourse := fun c =>
  if c = str "ART 1010" then
    some ⟨str "ART 1010", str "Art Foundations", some 76,
      some (str "lower-division"), some (str "Art"), []⟩
  else if c = str "ART 2010" then
    some ⟨str "ART 2010", str "Art History", some 70,
      some (str "lower-division"), some (str "Art"), []⟩
  else if c = str "CS 4600" then
    some ⟨str "CS 4600", str "Senior Project", some 45,
      some (str "upper-division"), some (str "Computer Science"), []⟩
  else if c = str "MATH 1050" then
    some ⟨str "MATH 1050", str "College Algebra", some 2,
      some (str "lower-division"), some (str "Mathematics"), []⟩
  else if c = str "BIOL 1010" then
    some ⟨str "BIOL 1010", str "General Biology", some 2,
      some (str "lower-division"), some (str "Biology"), []⟩
  else none

/-- A graph-row lookup whose levels carry the underscore spelling the
builder writes. -/
def db10 : Str → Option PlannerCourse := fun c =>
  if c = str "CS 3005" then
    some ⟨str "CS 3005", str "Programming in Cpp", some 3,
      some (str "upper_division"), some (str "Computer Science"), []⟩
  else if c = str "CS 1400" then
    some ⟨str "CS 1400", str "Intro to Programming", some 3,
      some (str "lower_division"), some (str "Computer Science"), []⟩
  else none

/-- Prerequisites of a course within the course set and not yet in the
emitted result. -/
def Fcount (cs : List Str) (pg : Str → List Str) (res : List Str) (c : Str) : Nat :=
  ((pg c).filter (fun p => decide (p ∈ cs) && !decide (p ∈ res))).length

/-- The loop invariant of the topological sort: queue and result consist
of requested courses without duplication, the in-degree table counts
exactly the not-yet-emitted prerequisites of each course, queued courses
have none left, every emitted course was emitted after all its
prerequisites, and every course with no remaining prerequisites is
already queued or emitted. -/
structure TopoInv (cs : List Str) (pg : Str → List Str) (deg : Str → Int)
    (queue res : List Str) : Prop where
  queue_sub : ∀ c ∈ queue, c ∈ cs
  res_sub : ∀ c ∈ res, c ∈ cs
  nodup : (queue ++ res).Nodup
  deg_eq : ∀ c ∈ cs, deg c = (Fcount cs pg res c : Int)
  queue_zero : ∀ c ∈ queue, Fcount cs pg res c = 0
  res_before : ∀ (i : Nat) (c : Str), res[i]? = some c →
    ∀ p ∈ pg c, p ∈ cs → p ∈ res.take i
  complete : ∀ c ∈ cs, Fcount cs pg res c = 0 → c ∈ queue ∨ c ∈ res

/-- The termination measure of the dequeue loop: twice the number of
requested courses neither queued nor emitted, plus the queue length. -/
def topoMeasure (cs queue res : List Str) : Nat :=
  2 * (cs.filter (fun c => !decide (c ∈ queue) && !decide (c ∈ res))).length +
    queue.length

/-- The three-course prerequisite mapping of the concrete scenario with
A a prerequisite of B and B a prerequisite of C. -/
def pgABC : Str → List Str := fun c =>
  if c = str "B" then [str "A"] else if c = str "C" then [str "B"] else []

/-- A rank function witnessing acyclicity of the concrete scenario. -/
def rankABC : Str → Nat := fun c =>
  if c = str "B" then 1 else if c = str "C" then 2 else 0

/-!
Idempotence infrastructure for the graph build (claim C1): a loop of
keyed upserts is characterised by the last write per key, and each
relationship loop only unions a state-determined edge set into the edge
set.
-/

theorem upsertAll_apply (key : α → Str) (mk : α → β) (L : List α) :
    ∀ (m : Str → Option β) (x : Str),
      upsertAll key mk L m x =
        (match lastKeyed key L x with
         | some a => some (mk a)
         | none => m x) := by
  induction L using List.reverseRecOn with
  | nil => intro m x; simp [upsertAll, lastKeyed]
  | append_singleton L a ih =>
    intro m x
    have h1 : upsertAll key mk (L ++ [a]) m x
        = upd (upsertAll key mk L m) (key a) (mk a) x := by
      simp [upsertAll, List.foldl_append]
    rw [h1]
    unfold upd
    by_cases hx : x = key a
    · have : lastKeyed key (L ++ [a]) x = some a := by
        unfold lastKeyed
        rw [List.filter_append]
        simp [hx.symm, List.getLast?_concat]
      rw [this]; simp [hx]
    · have : lastKeyed key (L ++ [a]) x = lastKeyed key L x := by
        unfold lastKeyed
        rw [List.filter_append]
        have hke : ¬ (key a = x) := fun hc => hx hc.symm
        have : (List.filter (fun b => decide (key b = x)) [a]) = [] := by
          simp [List.filter, hke]
        rw [this, List.append_nil]
      rw [this, if_neg hx, ih]

theorem upsertAll_absorb (key : α → Str) (mk1 mk2 : α → β) (L : List α)
    (m : Str → Option β) :
    upsertAll key mk2 L (upsertAll key mk1 L m) = upsertAll key mk2 L m := by
  funext x
  rw [upsertAll_apply, upsertAll_apply]
  cases h : lastKeyed key L x with
  | some a => rw [upsertAll_apply, h]
  | none => rw [upsertAll_apply, h]

theorem upsertAll_isSome (key : α → Str) (mk1 mk2 : α → β) (L : List α)
    (m : Str → Option β) (x : Str) :
    (upsertAll key mk1 L m x).isSome = (upsertAll key mk2 L m x).isSome := by
  rw [upsertAll_apply, upsertAll_apply]
  cases lastKeyed key L x <;> rfl

theorem upd_absorb (m : Str → Option β) (k : Str) (v1 v2 : β) :
    upd (upd m k v1) k v2 = upd m k v2 := by
  funext x
  unfold upd
  by_cases hx : x = k <;> simp [hx]

theorem populate_absorb (t1 t2 : Nat) (d : AcademicData) (s : GraphState) :
    populate_neo4j t2 d (populate_neo4j t1 d s) = populate_neo4j t2 d s := by
  unfold populate_neo4j
  refine GraphState.ext ?_ ?_ ?_ ?_ rfl
  · exact upd_absorb _ _ _ _
  · exact upsertAll_absorb _ _ _ _ _
  · exact upsertAll_absorb _ _ _ _ _
  · exact upsertAll_absorb _ _ _ _ _

theorem foldl_union_step {α : Type} (step : Set Edge → α → Set Edge)
    (A : α → Set Edge) (hstep : ∀ es a, step es a = es ∪ A a) :
    ∀ (L : List α) (es : Set Edge),
      L.foldl step es = es ∪ {e | ∃ a ∈ L, e ∈ A a} := by
  intro L
  induction L with
  | nil =>
    intro es
    apply Set.ext; intro e; simp
  | cons a L ih =>
    intro es
    have : (a :: L).foldl step es = L.foldl step (step es a) := rfl
    rw [this, ih, hstep]
    apply Set.ext; intro e
    simp [Set.mem_union]
    tauto

theorem create_rel_uni (s : GraphState) (d : AcademicData) :
    (create_relationships s d).uni = s.uni := rfl

theorem create_rel_dept (s : GraphState) (d : AcademicData) :
    (create_relationships s d).dept = s.dept := rfl

theorem create_rel_course (s : GraphState) (d : AcademicData) :
    (create_relationships s d).course = s.course := rfl

theorem create_rel_prog (s : GraphState) (d : AcademicData) :
    (create_relationships s d).prog = s.prog := rfl

theorem create_rel_edges (s : GraphState) (d : AcademicData) :
    (create_relationships s d).edges =
      s.edges ∪ relAdded s.uni s.dept s.course s.prog d := by
  have h1 := foldl_union_step
    (fun es ci =>
      if (s.course ci.code).isSome ∧ (s.dept ci.pfx).isSome then
        insert (belongsDisciplineEdge ci) (insert (offersCourseEdge ci) es)
      else es)
    (fun ci => {e | ((s.course ci.code).isSome ∧ (s.dept ci.pfx).isSome) ∧
        (e = offersCourseEdge ci ∨ e = belongsDisciplineEdge ci)})
    (by
      intro es a
      by_cases hc : (s.course a.code).isSome ∧ (s.dept a.pfx).isSome
      · apply Set.ext; intro e; simp [hc]; tauto
      · apply Set.ext; intro e; simp [hc])
    d.courses
  have h2 := foldl_union_step
    (fun es ci =>
      ci.prerequisites.foldl
        (fun es2 pc =>
          if (s.course pc).isSome ∧ (s.course ci.code).isSome then
            insert (prereqEdge pc ci) es2
          else es2) es)
    (fun ci => {e | ∃ pc ∈ ci.prerequisites,
        ((s.course pc).isSome ∧ (s.course ci.code).isSome) ∧ e = prereqEdge pc ci})
    (by
      intro es a
      have hin := foldl_union_step
        (fun es2 pc =>
          if (s.course pc).isSome ∧ (s.course a.code).isSome then
            insert (prereqEdge pc a) es2
          else es2)
        (fun pc => {e | ((s.course pc).isSome ∧ (s.course a.code).isSome) ∧
            e = prereqEdge pc a})
        (by
          intro es2 pc
          by_cases hc : (s.course pc).isSome ∧ (s.course a.code).isSome
          · apply Set.ext; intro e; simp [hc]
          · apply Set.ext; intro e; simp [hc])
        a.prerequisites
      simp only []
      rw [hin es]
      apply Set.ext; intro e; simp)
    d.courses
  have h3 := foldl_union_step
    (fun es p =>
      if p.department ≠ [] then
        if extract_department_pfx p.department ≠ [] then
          if (s.prog p.name).isSome ∧
              (s.dept (extract_department_pfx p.department)).isSome then
            insert (belongsDeptEdge (extract_department_pfx p.department) p)
              (insert (offersProgramEdge (extract_department_pfx p.department) p) es)
          else es
        else es
      else es)
    (fun p => {e |
        (p.department ≠ [] ∧ extract_department_pfx p.department ≠ [] ∧
         ((s.prog p.name).isSome ∧
          (s.dept (extract_department_pfx p.department)).isSome)) ∧
        (e = offersProgramEdge (extract_department_pfx p.department) p ∨
         e = belongsDeptEdge (extract_department_pfx p.department) p)})
    (by
      intro es a
      by_cases h1 : a.department ≠ []
      · by_cases h2 : extract_department_pfx a.department ≠ []
        · by_cases h3 : (s.prog a.name).isSome ∧
              (s.dept (extract_department_pfx a.department)).isSome
          · apply Set.ext; intro e; simp [h1, h2, h3]; tauto
          · apply Set.ext; intro e; simp [h1, h2, h3]
        · apply Set.ext; intro e; simp [h1, h2]
      · apply Set.ext; intro e; simp [h1])
    d.programs
  show (d.programs.foldl _
      (d.courses.foldl _ (d.courses.foldl _ s.edges))) ∪ _ =
    s.edges ∪ relAdded s.uni s.dept s.course s.prog d
  rw [h1, h2, h3]
  unfold relAdded
  apply Set.ext; intro e
  simp only [Set.mem_union, Set.mem_setOf_eq, or_assoc]

theorem relAdded_congr (u1 u2 : Str → Option UniProps)
    (d1m d2m : Str → Option DeptProps) (c1 c2 : Str → Option CourseProps)
    (p1 p2 : Str → Option ProgProps) (d : AcademicData)
    (hu : ∀ x, (u1 x).isSome = (u2 x).isSome)
    (hd : ∀ x, (d1m x).isSome = (d2m x).isSome)
    (hc : ∀ x, (c1 x).isSome = (c2 x).isSome)
    (hp : ∀ x, (p1 x).isSome = (p2 x).isSome) :
    relAdded u1 d1m c1 p1 d = relAdded u2 d2m c2 p2 d := by
  unfold relAdded
  simp only [hu, hd, hc, hp]

theorem upd_isSome (m : Str → Option β) (k : Str) (v1 v2 : β) (x : Str) :
    (upd m k v1 x).isSome = (upd m k v2 x).isSome := by
  unfold upd
  by_cases hx : x = k <;> simp [hx]

/-- Claim C1: graph population is idempotent.  A second build pass over
the same entity collections, with an arbitrary clock on each pass,
produces exactly the graph state of a single pass run at the second
clock: every node write is a keyed upsert and every relationship write
is a set insertion, so nodes, properties, edges and hence all counts
coincide with those of a single pass. -/
theorem c1_graph_build_idempotent (t1 t2 : Nat) (d : AcademicData) (s : GraphState) :
    build_graph_step t2 d (build_graph_step t1 d s) = build_graph_step t2 d s := by
  unfold build_graph_step
  have huni : (populate_neo4j t2 d (create_relationships (populate_neo4j t1 d s) d)).uni
      = (populate_neo4j t2 d s).uni := upd_absorb _ _ _ _
  have hdept : (populate_neo4j t2 d (create_relationships (populate_neo4j t1 d s) d)).dept
      = (populate_neo4j t2 d s).dept := upsertAll_absorb _ _ _ _ _
  have hcourse : (populate_neo4j t2 d (create_relationships (populate_neo4j t1 d s) d)).course
      = (populate_neo4j t2 d s).course := upsertAll_absorb _ _ _ _ _
  have hprog : (populate_neo4j t2 d (create_relationships (populate_neo4j t1 d s) d)).prog
      = (populate_neo4j t2 d s).prog := upsertAll_absorb _ _ _ _ _
  refine GraphState.ext (by rw [create_rel_uni, create_rel_uni, huni])
    (by rw [create_rel_dept, create_rel_dept, hdept])
    (by rw [create_rel_course, create_rel_course, hcourse])
    (by rw [create_rel_prog, create_rel_prog, hprog]) ?_
  rw [create_rel_edges, create_rel_edges]
  have hEdges : (populate_neo4j t2 d (create_relationships (populate_neo4j t1 d s) d)).edges
      = s.edges ∪ relAdded (populate_neo4j t1 d s).uni (populate_neo4j t1 d s).dept
          (populate_neo4j t1 d s).course (populate_neo4j t1 d s).prog d := by
    show (create_relationships (populate_neo4j t1 d s) d).edges = _
    rw [create_rel_edges]
    rfl
  rw [hEdges, huni, hdept, hcourse, hprog]
  have hR : relAdded (populate_neo4j t1 d s).uni (populate_neo4j t1 d s).dept
      (populate_neo4j t1 d s).course (populate_neo4j t1 d s).prog d =
      relAdded (populate_neo4j t2 d s).uni (populate_neo4j t2 d s).dept
        (populate_neo4j t2 d s).course (populate_neo4j t2 d s).prog d := by
    apply relAdded_congr
    · intro x; exact upd_isSome _ _ _ _ _
    · intro x; exact upsertAll_isSome _ _ _ _ _ _
    · intro x; exact upsertAll_isSome _ _ _ _ _ _
    · intro x; exact upsertAll_isSome _ _ _ _ _ _
  rw [hR, Set.union_assoc, Set.union_self]
  rfl

/-- Claim C2: the source tests the 3000 threshold before the 5000
threshold, so the graduate branch is unreachable: a course numbered 5000
is classified upper_division, and no course number at all is ever
classified graduate, contradicting the documented derivation (graduate
at 5000 and above). -/
theorem c2_graduate_branch_unreachable :
    determine_level 5000 = str "upper_division" ∧
    ∀ n : Nat, determine_level n ≠ str "graduate" := by
  constructor
  · decide
  · intro n
    unfold determine_level
    split_ifs with h1 h2
    · decide
    · omega
    · decide

/-- Claim C3 counterexample: for a prerequisite path of length 2 the
code annotates 1 semester, while the ceiling of (2 plus 1) over 2
(computed on naturals as (2 plus 1 plus 1) divided by 2) is 2. -/
theorem c3_counterexample :
    (get_prerequisite_chain (str "CS 2420")
        [⟨[str "CS 1400", str "CS 1410", str "CS 2420"], [3, 3, 3], 2⟩] 10).map
      (fun p => p.semestersNeeded) = [1] ∧
    (2 + 1 + 1) / 2 = 2 ∧ (1 : Nat) ≠ 2 := by decide

/-- Claim C3 as amended: every path returned by the prerequisite-chain
enumeration is annotated with max(1, floor((pathLength + 1) / 2))
semesters, where pathLength is the record's edge count; the spec's
ceiling disagrees exactly at even path lengths. -/
theorem c3_semester_annotation_floor (target : Str) (records : List ChainRecord)
    (maxDepth : Nat) (p : PrerequisitePath)
    (hp : p ∈ get_prerequisite_chain target records maxDepth) :
    ∃ r ∈ records, r.depth ≤ maxDepth ∧ p.path = r.coursePath ∧
      p.totalCredits = r.creditPath.sum ∧
      p.semestersNeeded = max 1 ((r.depth + 1) / 2) := by
  unfold get_prerequisite_chain at hp
  rcases List.mem_map.mp hp with ⟨r, hr, rfl⟩
  have hr2 : r ∈ records.filter (fun r => r.depth ≤ maxDepth) :=
    (((records.filter (fun r => r.depth ≤ maxDepth)).perm_insertionSort
      (fun a b => b.depth ≤ a.depth)).mem_iff).mp hr
  rcases List.mem_filter.mp hr2 with ⟨hmem, hle⟩
  exact ⟨r, hmem, by simpa using hle, rfl, rfl, rfl⟩

/-- Witness for the amended claim C3 at a concrete single-edge path. -/
theorem c3_semester_annotation_floor_witness :
    ∃ r ∈ [ChainRecord.mk [str "CS 1400", str "CS 1410"] [3, 3] 1],
      r.depth ≤ 10 ∧
      (PrerequisitePath.mk (str "CS 1410") [str "CS 1400", str "CS 1410"] 6 1).path =
        r.coursePath ∧
      (PrerequisitePath.mk (str "CS 1410") [str "CS 1400", str "CS 1410"] 6 1).totalCredits =
        r.creditPath.sum ∧
      (PrerequisitePath.mk (str "CS 1410") [str "CS 1400", str "CS 1410"] 6 1).semestersNeeded =
        max 1 ((r.depth + 1) / 2) :=
  c3_semester_annotation_floor (str "CS 1410")
    [ChainRecord.mk [str "CS 1400", str "CS 1410"] [3, 3] 1] 10
    (PrerequisitePath.mk (str "CS 1410") [str "CS 1400", str "CS 1410"] 6 1)
    (by decide)

/-- Claim C6: sequence validation checks only direct prerequisites
against the completed set accumulated from earlier positions: the order
CS 2420, CS 1400, CS 1410 yields exactly the one violation on CS 2420
with missing prerequisite CS 1410 (the transitive CS 1400 gap of the
first position is not reported), and the reordered list yields none. -/
theorem c6_sequence_validation_direct_only :
    (validate_course_sequence dbC6
        [str "CS 2420", str "CS 1400", str "CS 1410"]).violations =
      [Violation.mk (str "CS 2420") [str "CS 1410"]] ∧
    (validate_course_sequence dbC6
        [str "CS 2420", str "CS 1400", str "CS 1410"]).valid = false ∧
    (validate_course_sequence dbC6
        [str "CS 1400", str "CS 1410", str "CS 2420"]).violations = [] ∧
    (validate_course_sequence dbC6
        [str "CS 1400", str "CS 1410", str "CS 2420"]).valid = true := by
  decide

/-- Claim C8: with 125 completed credits, 45 of them upper-division,
across 4 disciplines and no further targets, ready_to_graduate holds;
with 119 completed credits it fails and the reported remaining credits
equal 1; in general readiness is exactly the conjunction of the
120-credit, 40-upper-division-credit and 3-discipline thresholds, and
the completion percentage is capped at 100. -/
theorem c8_degree_progress_thresholds :
    ((analyze_degree_progress db8
        [str "ART 1010", str "CS 4600", str "MATH 1050", str "BIOL 1010"] []).ready = true ∧
     (analyze_degree_progress db8
        [str "ART 1010", str "CS 4600", str "MATH 1050", str "BIOL 1010"] []).completedCredits = 125 ∧
     (analyze_degree_progress db8
        [str "ART 1010", str "CS 4600", str "MATH 1050", str "BIOL 1010"] []).completedUpper = 45 ∧
     (analyze_degree_progress db8
        [str "ART 1010", str "CS 4600", str "MATH 1050", str "BIOL 1010"] []).disciplineCount = 4) ∧
    ((analyze_degree_progress db8
        [str "ART 2010", str "CS 4600", str "MATH 1050", str "BIOL 1010"] []).ready = false ∧
     (analyze_degree_progress db8
        [str "ART 2010", str "CS 4600", str "MATH 1050", str "BIOL 1010"] []).completedCredits = 119 ∧
     (analyze_degree_progress db8
        [str "ART 2010", str "CS 4600", str "MATH 1050", str "BIOL 1010"] []).remainingToCredits = 1) ∧
    (∀ (db : Str → Option PlannerCourse) (comp targ : List Str),
      (analyze_degree_progress db comp targ).ready = true ↔
        ((analyze_degree_progress db comp targ).totalCredits ≥ 120 ∧
         (analyze_degree_progress db comp targ).totalUpper ≥ 40 ∧
         (analyze_degree_progress db comp targ).disciplineCount ≥ 3)) ∧
    (∀ (db : Str → Option PlannerCourse) (comp targ : List Str),
      (analyze_degree_progress db comp targ).percentage ≤ 100) := by
  refine ⟨⟨by decide, by decide, by decide, by decide⟩,
    ⟨by decide, by decide, by decide⟩, ?_, ?_⟩
  · intro db comp targ
    simp [analyze_degree_progress, Bool.and_eq_true, decide_eq_true_iff, ge_iff_le,
      and_assoc]
  · intro db comp targ
    exact min_le_left _ _

/-- Claim C5: prerequisite extraction is precise.  The explicit marker
example extracts exactly CS 1400 and MATH 1050; the incidental-mention
example extracts nothing; and in general any description with no
prerequisite-section match and no contextual-cue match extracts the
empty list, whatever course-code-shaped substrings it contains. -/
theorem c5_prerequisite_extraction_precision (d : Str)
    (h1 : prereqSections d = []) (h2 : contextMatches d = []) :
    extract_prerequisites d = [] ∧
    extract_prerequisites (str "Prerequisites: CS 1400 and MATH 1050.") =
      [str "CS 1400", str "MATH 1050"] ∧
    extract_prerequisites (str "See also CS 1400 for related content.") = [] := by
  refine ⟨?_, by decide, by decide⟩
  unfold extract_prerequisites
  rw [h1, h2]
  simp

/-- Witness for claim C5 at the incidental-mention description, whose
marker and cue searches are both empty. -/
theorem c5_prerequisite_extraction_precision_witness :
    extract_prerequisites (str "See also CS 1400 for related content.") = [] :=
  (c5_prerequisite_extraction_precision
    (str "See also CS 1400 for related content.") (by decide) (by decide)).2.2

/-- Claim C4 counterexample: the graph builder's program extractor
applies no name filters.  The page text Ab Minor yields a ProgramRecord
whose name has only 8 characters, and a Bachelor-of line with a pipe
yields a ProgramRecord whose name contains the pipe. -/
theorem c4_counterexample :
    (extract_programs_from_content (str "Ab Minor") []).map
      (fun p => (p.2.name, p.2.name.length)) = [(str "Ab Minor", 8)] ∧
    (extract_programs_from_content (str "Bachelor of Arts | Home") []).map
      (fun p => (p.2.name, decide ('|' ∈ p.2.name))) =
      [(str "Bachelor of Arts | Home", true)] := by decide

theorem scriptProgramStep_foldl_mem (sourceId : Str) (caps : List Str) :
    ∀ (init : List ScriptProgram) (p : ScriptProgram),
      p ∈ caps.foldl (scriptProgramStep sourceId) init →
      p ∈ init ∨
        (10 ≤ p.name.length ∧ pyLower p.name ≠ str "degree" ∧
         pyLower p.name ≠ str "certificate" ∧ '|' ∉ p.name) := by
  induction caps with
  | nil => intro init p hp; exact Or.inl hp
  | cons c caps ih =>
    intro init p hp
    rcases ih (scriptProgramStep sourceId init c) p hp with h | h
    · simp only [scriptProgramStep] at h
      split_ifs at h with hg
      · exact Or.inl h
      · push_neg at hg
        rcases List.mem_append.mp h with h2 | h2
        · exact Or.inl h2
        · rcases List.mem_singleton.mp h2 with rfl
          exact Or.inr ⟨hg.1, hg.2.2.1, hg.2.2.2.1, hg.2.2.2.2⟩
    · exact Or.inr h

/-- Claim C4 as amended: the under-10-characters, bare degree or
certificate, and literal-pipe rejections are enforced by the auxiliary
population script's program extractor, not by the graph builder's: every
program row the script produces has a name of at least ten characters
that is neither a bare degree nor a bare certificate word and contains
no pipe. -/
theorem c4_script_guard_rejections (content sourceId : Str) (p : ScriptProgram)
    (hp : p ∈ extract_programs_script content sourceId) :
    10 ≤ p.name.length ∧ pyLower p.name ≠ str "degree" ∧
    pyLower p.name ≠ str "certificate" ∧ '|' ∉ p.name := by
  unfold extract_programs_script at hp
  rcases scriptProgramStep_foldl_mem sourceId _ [] p hp with h | h
  · exact absurd h (List.not_mem_nil p)
  · exact h

/-- Witness for the amended claim C4 at a concrete accepted program. -/
theorem c4_script_guard_rejections_witness :
    10 ≤ (ScriptProgram.mk (str "Bachelor of Science in Biology") (str "Bachelor")
        (str "Unknown") [] [] none (str "catalog.utahtech.edu")).name.length ∧
    pyLower (ScriptProgram.mk (str "Bachelor of Science in Biology") (str "Bachelor")
        (str "Unknown") [] [] none (str "catalog.utahtech.edu")).name ≠ str "degree" ∧
    pyLower (ScriptProgram.mk (str "Bachelor of Science in Biology") (str "Bachelor")
        (str "Unknown") [] [] none (str "catalog.utahtech.edu")).name ≠ str "certificate" ∧
    '|' ∉ (ScriptProgram.mk (str "Bachelor of Science in Biology") (str "Bachelor")
        (str "Unknown") [] [] none (str "catalog.utahtech.edu")).name :=
  c4_script_guard_rejections (str "Bachelor of Science in Biology")
    (str "catalog.utahtech.edu")
    (ScriptProgram.mk (str "Bachelor of Science in Biology") (str "Bachelor")
      (str "Unknown") [] [] none (str "catalog.utahtech.edu"))
    (by decide)

theorem programRecord_foldl_mem (ps : List ProgramInfo) :
    ∀ (st : List ProgramRecord × List Str) (r : ProgramRecord),
      r ∈ (ps.foldl programRecordStep st).1 →
      r ∈ st.1 ∨ ∃ p ∈ ps, r.programName = p.name.take 500 := by
  induction ps with
  | nil => intro st r h; exact Or.inl h
  | cons q ps ih =>
    intro st r h
    rcases ih (programRecordStep st q) r h with h2 | h2
    · simp only [programRecordStep] at h2
      by_cases hg : List.take 500 q.name ∈ st.2
      · rw [if_pos hg] at h2; exact Or.inl h2
      · rw [if_neg hg] at h2
        rcases List.mem_append.mp h2 with h3 | h3
        · exact Or.inl h3
        · rcases List.mem_singleton.mp h3 with rfl
          exact Or.inr ⟨q, List.mem_cons_self _ _, rfl⟩
    · rcases h2 with ⟨p, hp, he⟩
      exact Or.inr ⟨p, List.mem_cons_of_mem _ hp, he⟩

theorem programRecord_foldl_seen (ps : List ProgramInfo) :
    ∀ (st : List ProgramRecord × List Str) (x : Str),
      x ∈ (ps.foldl programRecordStep st).2 ↔
        x ∈ st.2 ∨ ∃ p ∈ ps, x = p.name.take 500 := by
  induction ps with
  | nil => intro st x; simp
  | cons q ps ih =>
    intro st x
    rw [List.foldl_cons, ih]
    simp only [programRecordStep]
    by_cases hg : List.take 500 q.name ∈ st.2
    · rw [if_pos hg]
      constructor
      · rintro (h | ⟨p, hp, he⟩)
        · exact Or.inl h
        · exact Or.inr ⟨p, List.mem_cons_of_mem _ hp, he⟩
      · rintro (h | ⟨p, hp, he⟩)
        · exact Or.inl h
        · rcases List.mem_cons.mp hp with heq | hp2
          · subst heq; rw [he]; exact Or.inl hg
          · exact Or.inr ⟨p, hp2, he⟩
    · rw [if_neg hg]
      constructor
      · rintro (h | ⟨p, hp, he⟩)
        · rcases List.mem_append.mp h with h2 | h2
          · exact Or.inl h2
          · rcases List.mem_singleton.mp h2 with rfl
            exact Or.inr ⟨q, List.mem_cons_self _ _, rfl⟩
        · exact Or.inr ⟨p, List.mem_cons_of_mem _ hp, he⟩
      · rintro (h | ⟨p, hp, he⟩)
        · exact Or.inl (List.mem_append.mpr (Or.inl h))
        · rcases List.mem_cons.mp hp with heq | hp2
          · subst heq
            exact Or.inl (List.mem_append.mpr (Or.inr (List.mem_singleton.mpr he)))
          · exact Or.inr ⟨p, hp2, he⟩

theorem programRecord_skip (p2 : ProgramInfo) (rest : List ProgramInfo)
    (st : List ProgramRecord × List Str) (h : p2.name.take 500 ∈ st.2) :
    (p2 :: rest).foldl programRecordStep st = rest.foldl programRecordStep st := by
  rw [List.foldl_cons]
  congr 1
  simp only [programRecordStep]
  rw [if_pos h]

/-- Claim C9: program-name truncation round-trip.  Every stored program
row carries exactly the first 500 characters of some input program's
name (hence exactly 500 characters when the name is longer), and a later
program agreeing with an earlier one on those 500 characters is skipped
as a duplicate of the post-truncation key: removing it from the input
leaves the computation unchanged, so it is never stored as a new row. -/
theorem c9_program_truncation_roundtrip (ps pre mid post : List ProgramInfo)
    (p1 p2 : ProgramInfo) (hkey : p1.name.take 500 = p2.name.take 500) :
    (∀ r ∈ build_program_records ps, ∃ p ∈ ps, r.programName = p.name.take 500 ∧
        (500 < p.name.length → r.programName.length = 500)) ∧
    build_program_records (pre ++ p1 :: mid ++ p2 :: post) =
      build_program_records (pre ++ p1 :: mid ++ post) := by
  constructor
  · intro r hr
    rcases programRecord_foldl_mem ps ([], []) r hr with h | ⟨p, hp, he⟩
    · exact absurd h (List.not_mem_nil r)
    · refine ⟨p, hp, he, ?_⟩
      intro hlen
      rw [he, List.length_take]
      omega
  · unfold build_program_records
    have key : List.take 500 p2.name ∈
        (List.foldl programRecordStep ([], []) (pre ++ p1 :: mid)).2 :=
      (programRecord_foldl_seen (pre ++ p1 :: mid) ([], []) (p2.name.take 500)).mpr
        (Or.inr ⟨p1, by simp, hkey.symm⟩)
    have hsplit : pre ++ p1 :: mid ++ p2 :: post = (pre ++ p1 :: mid) ++ p2 :: post := by
      simp
    rw [hsplit, List.foldl_append, programRecord_skip p2 post _ key,
      ← List.foldl_append]

/-- Witness for claim C9: a 501-character program name processed twice
is stored once, truncated to its first 500 characters. -/
theorem c9_program_truncation_roundtrip_witness :
    (∀ r ∈ build_program_records
        [ProgramInfo.mk (List.replicate 501 'a') [] (str "Bachelor")
          (str "undergraduate") 120 [] [] []],
      ∃ p ∈ [ProgramInfo.mk (List.replicate 501 'a') [] (str "Bachelor")
          (str "undergraduate") 120 [] [] []],
        r.programName = p.name.take 500 ∧
        (500 < p.name.length → r.programName.length = 500)) ∧
    build_program_records ([] ++
        ProgramInfo.mk (List.replicate 501 'a') [] (str "Bachelor")
          (str "undergraduate") 120 [] [] [] :: [] ++
        ProgramInfo.mk (List.replicate 501 'a') [] (str "Bachelor")
          (str "undergraduate") 120 [] [] [] :: []) =
      build_program_records ([] ++
        ProgramInfo.mk (List.replicate 501 'a') [] (str "Bachelor")
          (str "undergraduate") 120 [] [] [] :: [] ++ []) :=
  c9_program_truncation_roundtrip
    [ProgramInfo.mk (List.replicate 501 'a') [] (str "Bachelor")
      (str "undergraduate") 120 [] [] []]
    [] [] []
    (ProgramInfo.mk (List.replicate 501 'a') [] (str "Bachelor")
      (str "undergraduate") 120 [] [] [])
    (ProgramInfo.mk (List.replicate 501 'a') [] (str "Bachelor")
      (str "undergraduate") 120 [] [] [])
    rfl

theorem dictUpsert_mem [DecidableEq κ] (d : List (κ × β)) (k : κ) (v : β) :
    ∀ kv ∈ dictUpsert d k v, kv ∈ d ∨ kv = (k, v) := by
  induction d with
  | nil => intro kv h; exact Or.inr (List.mem_singleton.mp h)
  | cons a d ih =>
    rcases a with ⟨k0, v0⟩
    intro kv h
    simp only [dictUpsert] at h
    by_cases hk : k0 = k
    · rw [if_pos hk] at h
      rcases List.mem_cons.mp h with rfl | h2
      · exact Or.inr (by rw [hk])
      · exact Or.inl (List.mem_cons_of_mem _ h2)
    · rw [if_neg hk] at h
      rcases List.mem_cons.mp h with rfl | h2
      · exact Or.inl (List.mem_cons_self _ _)
      · rcases ih kv h2 with h3 | h3
        · exact Or.inl (List.mem_cons_of_mem _ h3)
        · exact Or.inr h3

theorem determine_level_cases (n : Nat) :
    determine_level n = str "lower_division" ∨
    determine_level n = str "upper_division" := by
  unfold determine_level
  split_ifs with h1 h2
  · exact Or.inr rfl
  · omega
  · exact Or.inl rfl

theorem extractCourseStep_mem (init : List (Str × CourseInfo))
    (m : Str × Str × Str × Option Str × Str) :
    ∀ e ∈ extractCourseStep init m,
      e ∈ init ∨ e.2.level = str "lower_division" ∨
        e.2.level = str "upper_division" := by
  obtain ⟨pfx0, num, title0, creditsOpt, restAfter⟩ := m
  intro e he
  simp only [extractCourseStep] at he
  split_ifs at he with hv
  · exact Or.inl he
  · rcases dictUpsert_mem _ _ _ e he with h | h
    · exact Or.inl h
    · rcases determine_level_cases (digitsToNat num) with hl | hl
      · right; left; rw [h]; exact hl
      · right; right; rw [h]; exact hl

theorem extract_courses_fold_mem (ms : List (Str × Str × Str × Option Str × Str)) :
    ∀ (init : List (Str × CourseInfo)) (e : Str × CourseInfo),
      e ∈ ms.foldl extractCourseStep init →
      e ∈ init ∨ e.2.level = str "lower_division" ∨
        e.2.level = str "upper_division" := by
  induction ms with
  | nil => intro init e h; exact Or.inl h
  | cons m ms ih =>
    intro init e h
    rcases ih (extractCourseStep init m) e h with h2 | h2
    · exact extractCourseStep_mem init m e h2
    · exact Or.inr h2

theorem seqFetch_fold_mem (db : Str → Option PlannerCourse) (codes : List Str) :
    ∀ (init : List (Str × SeqCourseInfo)) (kv : Str × SeqCourseInfo),
      kv ∈ codes.foldl (seqFetchStep db) init →
      kv ∈ init ∨ ∃ c r, db c = some r ∧ kv.2 = seqInfoOf r := by
  induction codes with
  | nil => intro init kv h; exact Or.inl h
  | cons c codes ih =>
    intro init kv h
    rcases ih (seqFetchStep db init c) kv h with h2 | h2
    · unfold seqFetchStep at h2
      cases hc : db c with
      | some r =>
        rw [hc] at h2
        rcases dictUpsert_mem _ _ _ kv h2 with h3 | h3
        · exact Or.inl h3
        · exact Or.inr ⟨c, r, hc, by rw [h3]⟩
      | none => rw [hc] at h2; exact Or.inl h2
    · exact Or.inr h2

theorem sum_map_zero (f : α → Int) (l : List α) (h : ∀ x ∈ l, f x = 0) :
    (l.map f).sum = 0 := by
  induction l with
  | nil => rfl
  | cons a l ih =>
    simp [h a (List.mem_cons_self _ _),
      ih (fun x hx => h x (List.mem_cons_of_mem _ hx))]

theorem progUpperOf_eq_zero (db : Str → Option PlannerCourse)
    (hdb : ∀ c r, db c = some r →
      r.level = some (str "lower_division") ∨ r.level = some (str "upper_division"))
    (completed target : List Str) (c : Str) :
    progUpperOf db completed target c = 0 := by
  unfold progUpperOf progInfoOf
  by_cases hm : c ∈ completed ++ target
  · rw [if_pos hm]
    cases hc : db c with
    | none => rfl
    | some r =>
      have hne : r.level ≠ some (str "upper-division") := by
        rcases hdb c r hc with hl | hl <;> rw [hl] <;> decide
      simp only [Option.map_some']
      rw [if_neg hne]
  · rw [if_neg hm]

/-- Claim C10: level-string mismatch between writer and reader.  Every
course the extractor produces carries the underscore-spelled
lower_division or upper_division level (graduate is unreachable), while
the planning layer counts upper-division credits by equality with the
hyphen-spelled upper-division string; hence over any graph whose course
levels were written by the builder, the upper-division credit sums of
sequence validation and of degree-progress analysis are zero, whatever
course lists are supplied. -/
theorem c10_level_spelling_mismatch
    (db : Str → Option PlannerCourse)
    (hdb : ∀ c r, db c = some r →
      r.level = some (str "lower_division") ∨ r.level = some (str "upper_division"))
    (codes completed target : List Str) :
    (∀ (content : Str), ∀ e ∈ extract_courses_from_content content,
        e.2.level = str "lower_division" ∨ e.2.level = str "upper_division") ∧
    (validate_course_sequence db codes).upperDivisionCredits = 0 ∧
    (analyze_degree_progress db completed target).completedUpper = 0 ∧
    (analyze_degree_progress db completed target).remainingUpper = 0 ∧
    (analyze_degree_progress db completed target).totalUpper = 0 := by
  have hfil : ((codes.foldl (seqFetchStep db) []).map Prod.snd).filter
      (fun i => decide (i.level = some (str "upper-division"))) = [] := by
    rw [List.filter_eq_nil_iff]
    intro i hi
    rcases List.mem_map.mp hi with ⟨kv, hkv, rfl⟩
    rcases seqFetch_fold_mem db codes [] kv hkv with h | ⟨c, r, hc, he⟩
    · exact absurd h (List.not_mem_nil kv)
    · have hlv : kv.2.level = r.level := by rw [he]; rfl
      rcases hdb c r hc with hl | hl <;> simp [hlv, hl] <;> decide
  refine ⟨?_, ?_, ?_, ?_, ?_⟩
  · intro content e he
    rcases extract_courses_fold_mem _ [] e he with h | h
    · exact absurd h (List.not_mem_nil e)
    · exact h
  · simp only [validate_course_sequence, dictValues]
    rw [hfil]
    rfl
  · simp only [analyze_degree_progress]
    exact sum_map_zero _ _ (fun c _ => progUpperOf_eq_zero db hdb completed target c)
  · simp only [analyze_degree_progress]
    exact sum_map_zero _ _ (fun c _ => progUpperOf_eq_zero db hdb completed target c)
  · simp only [analyze_degree_progress]
    rw [sum_map_zero _ _ (fun c _ => progUpperOf_eq_zero db hdb completed target c),
      sum_map_zero _ _ (fun c _ => progUpperOf_eq_zero db hdb completed target c)]
    rfl

/-- Witness for claim C10 at a concrete builder-written graph. -/
theorem c10_level_spelling_mismatch_witness :
    (∀ (content : Str), ∀ e ∈ extract_courses_from_content content,
        e.2.level = str "lower_division" ∨ e.2.level = str "upper_division") ∧
    (validate_course_sequence db10 [str "CS 1400", str "CS 3005"]).upperDivisionCredits = 0 ∧
    (analyze_degree_progress db10 [str "CS 1400", str "CS 3005"] []).completedUpper = 0 ∧
    (analyze_degree_progress db10 [str "CS 1400", str "CS 3005"] []).remainingUpper = 0 ∧
    (analyze_degree_progress db10 [str "CS 1400", str "CS 3005"] []).totalUpper = 0 :=
  c10_level_spelling_mismatch db10
    (by
      intro c r h
      unfold db10 at h
      split_ifs at h with h1 h2
      · cases h; right; rfl
      · cases h; left; rfl)
    [str "CS 1400", str "CS 3005"] [str "CS 1400", str "CS 3005"] []

/-!
Correctness of the topological sort (claim C7).  The central quantity is
the number of prerequisites of a course, within the requested set, that
have not yet been emitted; the in-degree table tracks it exactly.
-/

theorem length_filter_le (l : List α) (p q : α → Bool)
    (h : ∀ a ∈ l, q a = true → p a = true) :
    (l.filter q).length ≤ (l.filter p).length := by
  induction l with
  | nil => simp
  | cons a l ih =>
    have ih2 := ih (fun x hx hq => h x (List.mem_cons_of_mem _ hx) hq)
    by_cases hq : q a = true
    · rw [List.filter_cons_of_pos hq, List.filter_cons_of_pos (h a (List.mem_cons_self _ _) hq)]
      simpa using ih2
    · rw [List.filter_cons_of_neg (by simpa using hq)]
      by_cases hp : p a = true
      · rw [List.filter_cons_of_pos hp]
        simp only [List.length_cons]
        omega
      · rw [List.filter_cons_of_neg (by simpa using hp)]
        exact ih2

theorem length_filter_ne_of_nodup (l : List α) [DecidableEq α] (a : α)
    (h : l.Nodup) (ha : a ∈ l) :
    (l.filter (fun x => x ≠ a)).length + 1 = l.length := by
  induction l with
  | nil => cases ha
  | cons b l ih =>
    rcases List.mem_cons.mp ha with rfl | ha2
    · have hnb : a ∉ l := (List.nodup_cons.mp h).1
      rw [List.filter_cons_of_neg (by simp)]
      have : l.filter (fun x => x ≠ a) = l :=
        List.filter_eq_self.mpr (fun x hx => by
          simp only [ne_eq, decide_eq_true_eq]
          intro hxa; exact hnb (hxa ▸ hx))
      rw [this]
      simp
    · have hba : b ≠ a := by
        rintro rfl
        exact (List.nodup_cons.mp h).1 ha2
      rw [List.filter_cons_of_pos (by simpa using hba)]
      simp only [List.length_cons]
      rw [← ih (List.nodup_cons.mp h).2 ha2]

theorem filter_ne_of_not_mem (l : List α) [DecidableEq α] (a : α) (ha : a ∉ l) :
    l.filter (fun x => x ≠ a) = l :=
  List.filter_eq_self.mpr (fun x hx => by
    simp only [ne_eq, decide_eq_true_eq]
    rintro rfl; exact ha hx)

theorem Fcount_res_mono (cs : List Str) (pg : Str → List Str)
    (res ext : List Str) (c : Str) :
    Fcount cs pg (res ++ ext) c ≤ Fcount cs pg res c := by
  unfold Fcount
  apply length_filter_le
  intro p _ hq
  simp only [Bool.and_eq_true, decide_eq_true_eq, Bool.not_eq_true',
    decide_eq_false_iff_not] at hq ⊢
  exact ⟨hq.1, fun hm => hq.2 (List.mem_append.mpr (Or.inl hm))⟩

theorem Fcount_append_current (cs : List Str) (pg : Str → List Str)
    (res : List Str) (c current : Str) (hnpgc : (pg c).Nodup)
    (hcur : current ∈ cs) (hnres : current ∉ res) :
    (current ∈ pg c → Fcount cs pg (res ++ [current]) c + 1 = Fcount cs pg res c) ∧
    (current ∉ pg c → Fcount cs pg (res ++ [current]) c = Fcount cs pg res c) := by
  have hsplit : (pg c).filter
      (fun p => decide (p ∈ cs) && !decide (p ∈ res ++ [current])) =
      ((pg c).filter (fun p => decide (p ∈ cs) && !decide (p ∈ res))).filter
        (fun p => p ≠ current) := by
    rw [List.filter_filter]
    apply List.filter_congr
    intro p _
    simp only [ne_eq, Bool.and_eq_true, decide_eq_true_eq, Bool.not_eq_true',
      decide_eq_false_iff_not, List.mem_append, List.mem_singleton,
      Bool.and_eq_true, decide_eq_true_eq]
    by_cases h1 : p ∈ cs <;> by_cases h2 : p ∈ res <;> by_cases h3 : p = current <;>
      simp [h1, h2, h3]
  have hnd : ((pg c).filter (fun p => decide (p ∈ cs) && !decide (p ∈ res))).Nodup :=
    hnpgc.filter _
  constructor
  · intro hin
    have hmem : current ∈ (pg c).filter
        (fun p => decide (p ∈ cs) && !decide (p ∈ res)) := by
      rw [List.mem_filter]
      exact ⟨hin, by simp [hcur, hnres]⟩
    unfold Fcount
    rw [hsplit]
    exact length_filter_ne_of_nodup _ _ hnd hmem
  · intro hout
    have hnmem : current ∉ (pg c).filter
        (fun p => decide (p ∈ cs) && !decide (p ∈ res)) := by
      rw [List.mem_filter]
      rintro ⟨h, _⟩; exact hout h
    unfold Fcount
    rw [hsplit, filter_ne_of_not_mem _ _ hnmem]

theorem topoDec_fold (pg : Str → List Str) (current : Str) :
    ∀ (L : List Str), L.Nodup →
    ∀ (deg : Str → Int) (qacc : List Str),
      (∀ x, (L.foldl (topoDecStep pg current) (deg, qacc)).1 x =
        if current ∈ pg x ∧ x ∈ L then deg x - 1 else deg x) ∧
      (L.foldl (topoDecStep pg current) (deg, qacc)).2 =
        qacc ++ L.filter (fun c => decide (current ∈ pg c) && decide (deg c - 1 = 0)) := by
  intro L
  induction L with
  | nil => intro _ deg qacc; exact ⟨fun x => by simp, by simp⟩
  | cons c L ih =>
    intro hnd deg qacc
    have hcL : c ∉ L := (List.nodup_cons.mp hnd).1
    have hndL : L.Nodup := (List.nodup_cons.mp hnd).2
    rw [List.foldl_cons]
    by_cases hc : current ∈ pg c
    · have hstep : topoDecStep pg current (deg, qacc) c =
          ((fun x => if x = c then deg c - 1 else deg x),
           if deg c - 1 = 0 then qacc ++ [c] else qacc) := by
        simp only [topoDecStep, if_pos hc]
        by_cases hz : deg c - 1 = 0 <;> simp [hz]
      rw [hstep]
      obtain ⟨ihf, ihs⟩ := ih hndL
        (fun x => if x = c then deg c - 1 else deg x)
        (if deg c - 1 = 0 then qacc ++ [c] else qacc)
      constructor
      · intro x
        rw [ihf x]
        by_cases hxc : x = c
        · subst hxc
          have hxL : x ∉ L := hcL
          simp [hxL, hc]
        · simp only [if_neg hxc]
          by_cases hxL : x ∈ L <;> simp [hxL, hxc, List.mem_cons]
      · rw [ihs]
        have hfiltL : L.filter (fun d => decide (current ∈ pg d) &&
            decide ((if d = c then deg c - 1 else deg d) - 1 = 0)) =
            L.filter (fun d => decide (current ∈ pg d) && decide (deg d - 1 = 0)) := by
          apply List.filter_congr
          intro d hd
          have hdc : d ≠ c := fun h => hcL (h ▸ hd)
          rw [if_neg hdc]
        rw [hfiltL]
        rw [List.filter_cons]
        by_cases hz : deg c - 1 = 0 <;> simp [hz, hc]
    · have hstep : topoDecStep pg current (deg, qacc) c = (deg, qacc) := by
        simp [topoDecStep, hc]
      rw [hstep]
      obtain ⟨ihf, ihs⟩ := ih hndL deg qacc
      constructor
      · intro x
        rw [ihf x]
        by_cases hxc : x = c
        · subst hxc; simp [hc]
        · by_cases hxL : x ∈ L <;> simp [hxL, hxc, List.mem_cons, hc]
      · rw [ihs, List.filter_cons]
        simp [hc]

theorem topoInv_res_zero {cs : List Str} {pg : Str → List Str} {deg : Str → Int}
    {queue res : List Str} (hInv : TopoInv cs pg deg queue res)
    (c : Str) (hc : c ∈ res) : Fcount cs pg res c = 0 := by
  obtain ⟨i, hi⟩ := List.mem_iff_getElem?.mp hc
  have hb := hInv.res_before i c hi
  have hnil : (pg c).filter (fun p => decide (p ∈ cs) && !decide (p ∈ res)) = [] := by
    rw [List.filter_eq_nil_iff]
    intro p hp
    simp only [Bool.and_eq_true, decide_eq_true_eq, Bool.not_eq_true',
      decide_eq_false_iff_not, not_and]
    intro hpcs
    simp only [not_not]
    exact List.take_subset _ _ (hb p hp hpcs)
  unfold Fcount
  rw [hnil]
  rfl

theorem topo_step (cs : List Str) (pg : Str → List Str)
    (hncs : cs.Nodup) (hnpg : ∀ c ∈ cs, (pg c).Nodup)
    (deg : Str → Int) (current : Str) (rest res : List Str)
    (hInv : TopoInv cs pg deg (current :: rest) res) :
    TopoInv cs pg (cs.foldl (topoDecStep pg current) (deg, rest)).1
      (cs.foldl (topoDecStep pg current) (deg, rest)).2 (res ++ [current]) ∧
    ∃ E : List Str,
      (cs.foldl (topoDecStep pg current) (deg, rest)).2 = rest ++ E ∧
      E.Nodup ∧ (∀ c ∈ E, c ∈ cs ∧ c ∉ current :: rest ∧ c ∉ res) := by
  have hQ := hInv.queue_sub
  have hR := hInv.res_sub
  have hN := hInv.nodup
  have hD := hInv.deg_eq
  have hZ := hInv.queue_zero
  have hB := hInv.res_before
  have hC := hInv.complete
  have hcur_cs : current ∈ cs := hQ current (List.mem_cons_self _ _)
  rcases List.nodup_append.mp hN with ⟨hqn, hrn, hdisj⟩
  rcases List.nodup_cons.mp hqn with ⟨hcrest, hrestn⟩
  have hcur_res : current ∉ res := fun hm => hdisj (List.mem_cons_self _ _) hm
  obtain ⟨hFdeg, hFq⟩ := topoDec_fold pg current cs hncs deg rest
  set E := cs.filter (fun c => decide (current ∈ pg c) && decide (deg c - 1 = 0)) with hE
  have hEmem : ∀ c ∈ E, c ∈ cs ∧ current ∈ pg c ∧ deg c = 1 := by
    intro c hc
    rcases List.mem_filter.mp hc with ⟨h1, h2⟩
    simp only [Bool.and_eq_true, decide_eq_true_eq] at h2
    exact ⟨h1, h2.1, by omega⟩
  have hEF : ∀ c ∈ E, Fcount cs pg res c = 1 := by
    intro c hc
    obtain ⟨h1, _, h3⟩ := hEmem c hc
    have h4 := hD c h1
    omega
  have hEfresh : ∀ c ∈ E, c ∉ current :: rest ∧ c ∉ res := by
    intro c hc
    constructor
    · intro hq
      have h1 := hZ c hq
      have h2 := hEF c hc
      omega
    · intro hr
      have h1 := topoInv_res_zero hInv c hr
      have h2 := hEF c hc
      omega
  have hFrel : ∀ c ∈ cs,
      (current ∈ pg c → Fcount cs pg (res ++ [current]) c + 1 = Fcount cs pg res c) ∧
      (current ∉ pg c → Fcount cs pg (res ++ [current]) c = Fcount cs pg res c) :=
    fun c hc => Fcount_append_current cs pg res c current (hnpg c hc) hcur_cs hcur_res
  refine ⟨?_, E, hFq, hncs.filter _,
    fun c hc => ⟨(hEmem c hc).1, (hEfresh c hc).1, (hEfresh c hc).2⟩⟩
  rw [hFq]
  constructor
  · -- queue_sub
    intro c hc
    rcases List.mem_append.mp hc with h1 | h1
    · exact hQ c (List.mem_cons_of_mem _ h1)
    · exact (hEmem c h1).1
  · -- res_sub
    intro c hc
    rcases List.mem_append.mp hc with h1 | h1
    · exact hR c h1
    · exact (List.mem_singleton.mp h1) ▸ hcur_cs
  · -- nodup
    apply List.nodup_append.mpr
    refine ⟨?_, ?_, ?_⟩
    · apply List.nodup_append.mpr
      exact ⟨hrestn, hncs.filter _,
        fun a ha hae => (hEfresh a hae).1 (List.mem_cons_of_mem _ ha)⟩
    · apply List.nodup_append.mpr
      refine ⟨hrn, List.nodup_singleton _, ?_⟩
      intro a ha hac
      rcases List.mem_singleton.mp hac with rfl
      exact hcur_res ha
    · intro a ha hb2
      rcases List.mem_append.mp ha with h1 | h1 <;>
        rcases List.mem_append.mp hb2 with h2 | h2
      · exact hdisj (List.mem_cons_of_mem _ h1) h2
      · rcases List.mem_singleton.mp h2 with rfl
        exact hcrest h1
      · exact (hEfresh a h1).2 h2
      · rcases List.mem_singleton.mp h2 with rfl
        exact (hEfresh a h1).1 (List.mem_cons_self _ _)
  · -- deg_eq
    intro c hc
    rw [hFdeg c]
    by_cases hcp : current ∈ pg c
    · rw [if_pos ⟨hcp, hc⟩]
      have h1 := (hFrel c hc).1 hcp
      have h2 := hD c hc
      omega
    · rw [if_neg (fun h => hcp h.1)]
      have h1 := (hFrel c hc).2 hcp
      have h2 := hD c hc
      omega
  · -- queue_zero
    intro c hc
    rcases List.mem_append.mp hc with h1 | h1
    · have h2 := hZ c (List.mem_cons_of_mem _ h1)
      have h3 := Fcount_res_mono cs pg res [current] c
      omega
    · have h2 := hEF c h1
      have h3 := (hFrel c (hEmem c h1).1).1 (hEmem c h1).2.1
      omega
  · -- res_before
    intro i c hi p hp hpcs
    have hilen : i < res.length + 1 := by
      have h1 := (List.getElem?_eq_some.mp hi).1
      simpa using h1
    by_cases hio : i < res.length
    · rw [List.getElem?_append_left hio] at hi
      rw [List.take_append_of_le_length (le_of_lt hio)]
      exact hB i c hi p hp hpcs
    · have hieq : i = res.length := by omega
      subst hieq
      rw [List.getElem?_concat_length] at hi
      have hcc : current = c := by injection hi
      subst hcc
      rw [List.take_append_of_le_length (le_refl _), List.take_length]
      have h0 := hZ current (List.mem_cons_self _ _)
      unfold Fcount at h0
      rw [List.length_eq_zero] at h0
      by_contra hpr
      have hmem : p ∈ (pg current).filter
          (fun q => decide (q ∈ cs) && !decide (q ∈ res)) := by
        rw [List.mem_filter]
        exact ⟨hp, by simp [hpcs, hpr]⟩
      rw [h0] at hmem
      exact absurd hmem (List.not_mem_nil p)
  · -- complete
    intro c hc h0
    by_cases hcp : current ∈ pg c
    · have h1 := (hFrel c hc).1 hcp
      have hdc : deg c = 1 := by
        have h2 := hD c hc
        omega
      left
      apply List.mem_append.mpr
      right
      rw [hE]
      apply List.mem_filter.mpr
      refine ⟨hc, ?_⟩
      simp [hcp, hdc]
    · have h1 := (hFrel c hc).2 hcp
      have h1b : Fcount cs pg res c = 0 := by omega
      rcases hC c hc h1b with hq | hr
      · rcases List.mem_cons.mp hq with rfl | hq2
        · right; exact List.mem_append.mpr (Or.inr (List.mem_singleton.mpr rfl))
        · left; exact List.mem_append.mpr (Or.inl hq2)
      · right; exact List.mem_append.mpr (Or.inl hr)

theorem topoRun_inv (cs : List Str) (pg : Str → List Str)
    (hncs : cs.Nodup) (hnpg : ∀ c ∈ cs, (pg c).Nodup) :
    ∀ (fuel : Nat) (deg : Str → Int) (queue res : List Str),
      TopoInv cs pg deg queue res →
      TopoInv cs pg (topoRun cs pg fuel deg queue res).1
        (topoRun cs pg fuel deg queue res).2.1
        (topoRun cs pg fuel deg queue res).2.2 := by
  intro fuel
  induction fuel with
  | zero => intro deg queue res h; exact h
  | succ fuel ih =>
    intro deg queue res h
    cases queue with
    | nil => exact h
    | cons current rest =>
      exact ih _ _ _ (topo_step cs pg hncs hnpg deg current rest res h).1

theorem length_filter_split (l : List α) (p q : α → Bool) :
    (l.filter p).length =
      (l.filter (fun a => p a && q a)).length +
      (l.filter (fun a => p a && !q a)).length := by
  induction l with
  | nil => rfl
  | cons a l ih =>
    by_cases hp : p a = true
    · by_cases hq : q a = true
      · simp only [List.filter_cons, hp, hq]
        simp [ih]
        omega
      · simp only [List.filter_cons, hp, Bool.and_eq_true]
        simp [hq, ih]
        omega
    · simp only [List.filter_cons, hp, Bool.and_eq_true]
      simp [hp, ih]

theorem length_filter_mem_eq (cs E : List Str) (hncs : cs.Nodup)
    (hE : E.Nodup) (hsub : ∀ c ∈ E, c ∈ cs) :
    (cs.filter (fun c => decide (c ∈ E))).length = E.length := by
  have hperm : List.Perm (cs.filter (fun c => decide (c ∈ E))) E := by
    apply (List.perm_ext_iff_of_nodup (hncs.filter _) hE).mpr
    intro a
    rw [List.mem_filter]
    simp only [decide_eq_true_eq]
    constructor
    · rintro ⟨_, h⟩; exact h
    · intro h; exact ⟨hsub a h, h⟩
  exact hperm.length_eq

theorem missing_split (cs : List Str) (hncs : cs.Nodup)
    (current : Str) (rest res E : List Str) (hEnd : E.Nodup)
    (hEsub : ∀ c ∈ E, c ∈ cs)
    (hEfresh : ∀ c ∈ E, c ∉ current :: rest ∧ c ∉ res) :
    (cs.filter (fun c => !decide (c ∈ current :: rest) && !decide (c ∈ res))).length =
    (cs.filter (fun c => !decide (c ∈ rest ++ E) && !decide (c ∈ res ++ [current]))).length
      + E.length := by
  rw [length_filter_split cs
    (fun c => !decide (c ∈ current :: rest) && !decide (c ∈ res))
    (fun c => !decide (c ∈ E))]
  have h1 : cs.filter (fun c =>
      (!decide (c ∈ current :: rest) && !decide (c ∈ res)) && !decide (c ∈ E)) =
      cs.filter (fun c => !decide (c ∈ rest ++ E) && !decide (c ∈ res ++ [current])) := by
    apply List.filter_congr
    intro c _
    simp only [Bool.and_eq_true, Bool.not_eq_true', decide_eq_false_iff_not,
      List.mem_cons, List.mem_append, List.mem_singleton, not_or,
      Bool.and_eq_true, decide_eq_true_eq, Bool.not_eq_true]
    by_cases h1 : c = current <;> by_cases h2 : c ∈ rest <;>
      by_cases h3 : c ∈ res <;> by_cases h4 : c ∈ E <;>
      simp [h1, h2, h3, h4]
  have h2 : cs.filter (fun c =>
      (!decide (c ∈ current :: rest) && !decide (c ∈ res)) && !(!decide (c ∈ E))) =
      cs.filter (fun c => decide (c ∈ E)) := by
    apply List.filter_congr
    intro c _
    by_cases h4 : c ∈ E
    · have hf := hEfresh c h4
      simp [h4, hf.1, hf.2]
    · simp [h4]
  rw [h1, h2, length_filter_mem_eq cs E hncs hEnd hEsub]

theorem topoRun_queue_empty (cs : List Str) (pg : Str → List Str)
    (hncs : cs.Nodup) (hnpg : ∀ c ∈ cs, (pg c).Nodup) :
    ∀ (fuel : Nat) (deg : Str → Int) (queue res : List Str),
      TopoInv cs pg deg queue res →
      topoMeasure cs queue res < fuel →
      (topoRun cs pg fuel deg queue res).2.1 = [] := by
  intro fuel
  induction fuel with
  | zero => intro _ _ _ _ hm; omega
  | succ fuel ih =>
    intro deg queue res hInv hm
    cases queue with
    | nil => rfl
    | cons current rest =>
      obtain ⟨hInv2, E, hQE, hEnd, hEprops⟩ :=
        topo_step cs pg hncs hnpg deg current rest res hInv
      have hEsub : ∀ c ∈ E, c ∈ cs := fun c hc => (hEprops c hc).1
      have hEfresh : ∀ c ∈ E, c ∉ current :: rest ∧ c ∉ res :=
        fun c hc => ⟨(hEprops c hc).2.1, (hEprops c hc).2.2⟩
      have hmsplit := missing_split cs hncs current rest res E hEnd hEsub hEfresh
      have hm2 : topoMeasure cs
          ((cs.foldl (topoDecStep pg current) (deg, rest)).2) (res ++ [current]) < fuel := by
        rw [hQE]
        unfold topoMeasure at hm ⊢
        rw [List.length_append]
        unfold topoMeasure at hmsplit
        simp only [List.length_cons] at hm
        omega
      exact ih _ _ _ hInv2 hm2

theorem dedupFirstGo_of_nodup [DecidableEq α] :
    ∀ (l seen : List α), l.Nodup → (∀ x ∈ l, x ∉ seen) → dedupFirstGo seen l = l := by
  intro l
  induction l with
  | nil => intro seen _ _; rfl
  | cons x l ih =>
    intro seen hnd hdisj
    have hx : x ∉ seen := hdisj x (List.mem_cons_self _ _)
    simp only [dedupFirstGo, hx, if_false]
    rw [ih (seen ++ [x]) (List.nodup_cons.mp hnd).2]
    intro y hy
    rw [List.mem_append, List.mem_singleton]
    rintro (h | rfl)
    · exact hdisj y (List.mem_cons_of_mem _ hy) h
    · exact (List.nodup_cons.mp hnd).1 hy

theorem dedupFirst_of_nodup [DecidableEq α] (l : List α) (h : l.Nodup) :
    dedupFirst l = l :=
  dedupFirstGo_of_nodup l [] h (fun x _ => List.not_mem_nil x)

theorem buildInDegree_go (cs : List Str) (pg : Str → List Str) :
    ∀ (L : List Str), L.Nodup → ∀ (deg0 : Str → Int) (x : Str),
      (L.foldl (fun deg c => fun y =>
        if y = c then deg y + (((pg c).filter (fun p => p ∈ cs)).length : Int)
        else deg y) deg0) x =
      deg0 x + (if x ∈ L then (((pg x).filter (fun p => p ∈ cs)).length : Int) else 0) := by
  intro L
  induction L with
  | nil => intro _ deg0 x; simp
  | cons c L ih =>
    intro hnd deg0 x
    have hcL : c ∉ L := (List.nodup_cons.mp hnd).1
    rw [List.foldl_cons, ih (List.nodup_cons.mp hnd).2]
    by_cases hxc : x = c
    · subst hxc
      rw [if_pos rfl, if_neg hcL, if_pos (List.mem_cons_self _ _)]
      simp
    · rw [if_neg hxc]
      by_cases hxL : x ∈ L
      · rw [if_pos hxL, if_pos (List.mem_cons_of_mem _ hxL)]
      · rw [if_neg hxL, if_neg (by rw [List.mem_cons]; tauto)]

theorem Fcount_nil (cs : List Str) (pg : Str → List Str) (c : Str) :
    (Fcount cs pg [] c : Int) = (((pg c).filter (fun p => p ∈ cs)).length : Int) := by
  unfold Fcount
  congr 2
  apply List.filter_congr
  intro p _
  simp

theorem buildInDegree_apply (cs : List Str) (pg : Str → List Str)
    (hncs : cs.Nodup) (c : Str) (hc : c ∈ cs) :
    buildInDegree cs pg c = (Fcount cs pg [] c : Int) := by
  unfold buildInDegree
  rw [buildInDegree_go cs pg cs hncs (fun _ => 0) c, if_pos hc, Fcount_nil]
  simp

theorem topo_init_inv (cs : List Str) (pg : Str → List Str) (hncs : cs.Nodup) :
    TopoInv cs pg (buildInDegree cs pg)
      ((dedupFirst cs).filter (fun c => buildInDegree cs pg c = 0)) [] := by
  rw [dedupFirst_of_nodup cs hncs]
  constructor
  · intro c hc; exact (List.mem_filter.mp hc).1
  · intro c hc; cases hc
  · rw [List.append_nil]; exact hncs.filter _
  · intro c hc; exact buildInDegree_apply cs pg hncs c hc
  · intro c hc
    rcases List.mem_filter.mp hc with ⟨h1, h2⟩
    simp only [decide_eq_true_eq] at h2
    have h3 := buildInDegree_apply cs pg hncs c h1
    omega
  · intro i c hi
    simp at hi
  · intro c hc h0
    left
    apply List.mem_filter.mpr
    refine ⟨hc, ?_⟩
    have h3 := buildInDegree_apply cs pg hncs c hc
    simp only [decide_eq_true_eq]
    omega

theorem group_semesters_flatten (found : Str → Bool) (creditOf : Str → Int)
    (cap : Int) :
    ∀ (l cur : List Str) (cc : Int),
      (group_semesters found creditOf cap l cur cc).flatten = cur ++ l.filter found := by
  intro l
  induction l with
  | nil =>
    intro cur cc
    by_cases h : cur = [] <;> simp [group_semesters, h]
  | cons c l ih =>
    intro cur cc
    simp only [group_semesters]
    by_cases hf : found c = true
    · rw [if_pos hf]
      by_cases hcap : cap < cc + creditOf c ∧ cur ≠ []
      · rw [if_pos (by exact hcap)]
        simp [ih, List.filter_cons, hf]
      · rw [if_neg (by exact hcap)]
        rw [ih]
        simp [List.filter_cons, hf]
    · rw [if_neg (by simp [hf])]
      rw [ih]
      simp [List.filter_cons, hf]

/-- Claim C7: for distinct target courses with duplicate-free direct
prerequisite lists and an acyclic prerequisite-within-subset relation
(witnessed by a rank function that strictly decreases along
prerequisites), the topological sort emits every requested course
exactly once, and every emitted course is preceded by all of its
in-subset prerequisites; the semester packing of the recommendation
flattens back to the sorted order (restricted to fetched courses), so
the recommended sequence places every prerequisite before each course
that depends on it. -/
theorem c7_topological_sort_respects_prerequisites
    (cs : List Str) (pg : Str → List Str) (rank : Str → Nat)
    (hncs : cs.Nodup) (hnpg : ∀ c ∈ cs, (pg c).Nodup)
    (hrank : ∀ c ∈ cs, ∀ p ∈ pg c, p ∈ cs → rank p < rank c) :
    (∀ c ∈ cs, c ∈ topological_sort cs pg) ∧
    (topological_sort cs pg).Nodup ∧
    (∀ c ∈ topological_sort cs pg, c ∈ cs) ∧
    (∀ (j : Nat) (c : Str), (topological_sort cs pg)[j]? = some c →
      ∀ p ∈ pg c, p ∈ cs → p ∈ (topological_sort cs pg).take j) ∧
    (∀ (found : Str → Bool) (creditOf : Str → Int) (cap : Int),
      (group_semesters found creditOf cap (topological_sort cs pg) [] 0).flatten =
        (topological_sort cs pg).filter found) := by
  have hInit := topo_init_inv cs pg hncs
  have hts : topological_sort cs pg =
      (topoRun cs pg (2 * cs.length + 2) (buildInDegree cs pg)
        ((dedupFirst cs).filter (fun c => buildInDegree cs pg c = 0)) []).2.2 := rfl
  have hq0cs : (dedupFirst cs).filter (fun c => buildInDegree cs pg c = 0) =
      cs.filter (fun c => decide (buildInDegree cs pg c = 0)) := by
    rw [dedupFirst_of_nodup cs hncs]
  have hq0nd : ((dedupFirst cs).filter (fun c => buildInDegree cs pg c = 0)).Nodup := by
    rw [hq0cs]; exact hncs.filter _
  have hq0sub : ∀ c ∈ (dedupFirst cs).filter (fun c => buildInDegree cs pg c = 0),
      c ∈ cs := by
    rw [hq0cs]; intro c hc; exact (List.mem_filter.mp hc).1
  have hmu : topoMeasure cs
      ((dedupFirst cs).filter (fun c => buildInDegree cs pg c = 0)) [] <
      2 * cs.length + 2 := by
    have hsplit := length_filter_split cs (fun _ => true)
      (fun c => decide (c ∈ (dedupFirst cs).filter (fun c => buildInDegree cs pg c = 0)))
    have hft : cs.filter (fun _ => true) = cs := List.filter_true cs
    have h1 : cs.filter (fun c => true &&
        decide (c ∈ (dedupFirst cs).filter (fun c => buildInDegree cs pg c = 0))) =
        cs.filter (fun c =>
          decide (c ∈ (dedupFirst cs).filter (fun c => buildInDegree cs pg c = 0))) := by
      apply List.filter_congr; intro c _; simp
    have h2 : cs.filter (fun c => true &&
        !decide (c ∈ (dedupFirst cs).filter (fun c => buildInDegree cs pg c = 0))) =
        cs.filter (fun c =>
          !decide (c ∈ (dedupFirst cs).filter (fun c => buildInDegree cs pg c = 0)) &&
          !decide (c ∈ ([] : List Str))) := by
      apply List.filter_congr; intro c _; simp
    have h3 := length_filter_mem_eq cs
      ((dedupFirst cs).filter (fun c => buildInDegree cs pg c = 0)) hncs hq0nd hq0sub
    rw [hft, h1, h2] at hsplit
    unfold topoMeasure
    omega
  have hFinal := topoRun_inv cs pg hncs hnpg (2 * cs.length + 2)
    (buildInDegree cs pg)
    ((dedupFirst cs).filter (fun c => buildInDegree cs pg c = 0)) [] hInit
  have hEmpty := topoRun_queue_empty cs pg hncs hnpg (2 * cs.length + 2)
    (buildInDegree cs pg)
    ((dedupFirst cs).filter (fun c => buildInDegree cs pg c = 0)) [] hInit hmu
  refine ⟨?_, ?_, ?_, ?_,
    fun found creditOf cap => group_semesters_flatten found creditOf cap _ [] 0⟩
  · rw [hts]
    have hstrong : ∀ (n : Nat) (c : Str), c ∈ cs → rank c < n →
        c ∈ (topoRun cs pg (2 * cs.length + 2) (buildInDegree cs pg)
          ((dedupFirst cs).filter (fun c => buildInDegree cs pg c = 0)) []).2.2 := by
      intro n
      induction n with
      | zero => intro c _ h; omega
      | succ n ih =>
        intro c hc hr
        have hall : ∀ p ∈ pg c, p ∈ cs →
            p ∈ (topoRun cs pg (2 * cs.length + 2) (buildInDegree cs pg)
              ((dedupFirst cs).filter (fun c => buildInDegree cs pg c = 0)) []).2.2 :=
          fun p hp hpcs => ih p hpcs
            (by have := hrank c hc p hp hpcs; omega)
        have hF : Fcount cs pg
            (topoRun cs pg (2 * cs.length + 2) (buildInDegree cs pg)
              ((dedupFirst cs).filter (fun c => buildInDegree cs pg c = 0)) []).2.2 c
            = 0 := by
          unfold Fcount
          rw [List.length_eq_zero, List.filter_eq_nil_iff]
          intro p hp
          simp only [Bool.and_eq_true, decide_eq_true_eq, Bool.not_eq_true',
            decide_eq_false_iff_not, not_and, not_not]
          exact fun hpcs => hall p hp hpcs
        rcases hFinal.complete c hc hF with h | h
        · rw [hEmpty] at h; cases h
        · exact h
    exact fun c hc => hstrong (rank c + 1) c hc (Nat.lt_succ_self _)
  · rw [hts]
    have hn := hFinal.nodup
    rw [hEmpty] at hn
    simpa using hn
  · rw [hts]
    exact fun c hc => hFinal.res_sub c hc
  · rw [hts]
    exact hFinal.res_before

/-- Witness for claim C7 at the concrete three-course scenario.  The
sort emits all three courses, without duplicates, each after its
prerequisites; since the computed order is A, B, C, the sort places A
before B and B before C as the claim requires. -/
theorem c7_topological_sort_witness :
    ((∀ c ∈ [str "A", str "B", str "C"],
        c ∈ topological_sort [str "A", str "B", str "C"] pgABC) ∧
     (topological_sort [str "A", str "B", str "C"] pgABC).Nodup ∧
     (∀ c ∈ topological_sort [str "A", str "B", str "C"] pgABC,
        c ∈ [str "A", str "B", str "C"]) ∧
     (∀ (j : Nat) (c : Str),
        (topological_sort [str "A", str "B", str "C"] pgABC)[j]? = some c →
        ∀ p ∈ pgABC c, p ∈ [str "A", str "B", str "C"] →
          p ∈ (topological_sort [str "A", str "B", str "C"] pgABC).take j) ∧
     (∀ (found : Str → Bool) (creditOf : Str → Int) (cap : Int),
        (group_semesters found creditOf cap
          (topological_sort [str "A", str "B", str "C"] pgABC) [] 0).flatten =
        (topological_sort [str "A", str "B", str "C"] pgABC).filter found)) ∧
    topological_sort [str "A", str "B", str "C"] pgABC =
      [str "A", str "B", str "C"] :=
  ⟨c7_topological_sort_respects_prerequisites
      [str "A", str "B", str "C"] pgABC rankABC
      (by decide)
      (by decide)
      (by decide),
   by decide⟩
